import Mathlib

/-!
Verification of the endlessh journal analyzer (`src/analyze.py`).

The development is a shallow embedding of the script's core pipeline:
event parsing (`ConnectionEvent.from_journal`), connection correlation
(the loop body of `main`, lines 206-222), aggregation and report
rendering (`main`, lines 224-255), together with the Python library
primitives those functions rely on (`int(str)`, `float(str)`,
`ipaddress.ip_address`, `datetime.strptime` for the single format used,
and `str`/`repr` of addresses).

Modelling conventions:
* Python exceptions become `Except PyErr`; the constructor records the
  exception class (`ValueError`, `KeyError`, `IndexError`, `TypeError`).
* Python `float` is modelled as an exact rational (`ℚ`).  String-to-float
  conversion yields the exact decimal value; the special values
  `inf`/`nan` and binary rounding are outside the model (no claim under
  verification depends on them).
* Python `int` is the unbounded `Int`.
* `str.split(sep)` (always called with a one-character separator here)
  is `pySplit`, a direct structural implementation keeping empty pieces.
* Whitespace stripping (`int`/`float` accept surrounding whitespace)
  strips the ASCII whitespace characters, which covers every input the
  log pipeline can produce.
-/

namespace Analyze

attribute [local semireducible] Rat.add Rat.mul Rat.inv Rat.sub

/-- Python exception classes that the analyzed code can raise. -/
inductive PyErr where
  | valueError
  | keyError
  | indexError
  | typeError
deriving DecidableEq

/-- Numeric value of an ASCII digit. -/
def dval (c : Char) : Nat := c.toNat - 48

/-- Decimal value of a digit string (underscores skipped, as in CPython
number parsing where validity is checked separately). -/
def digitsVal (cs : List Char) : Nat :=
  cs.foldl (fun a c => if c = '_' then a else a * 10 + dval c) 0

/-- Count of actual digit characters in a digit-with-underscores run. -/
def digitsCount (cs : List Char) : Nat := (cs.filter (·.isDigit)).length

/-- Validity of a CPython digit run with underscores: nonempty, made of
digits and underscores, underscores only between digits.  The flag records
whether the previous character was a digit. -/
def digitsUAux : List Char → Bool → Bool
  | [], prevDigit => prevDigit
  | '_' :: rest, prevDigit => prevDigit && digitsUAux rest false
  | c :: rest, _ => c.isDigit && digitsUAux rest true

/-- Validity of a digit run as accepted inside CPython `int()`/`float()`. -/
def digitsU (cs : List Char) : Bool := digitsUAux cs false

/-- ASCII whitespace stripped by Python `int()`/`float()` conversion. -/
def pyIsSpace (c : Char) : Bool :=
  c = ' ' || c = '\t' || c = '\n' || c = '\r' || c = '\x0b' || c = '\x0c'

/-- Characters of a string with surrounding whitespace stripped
(`str.strip()` as applied by the number constructors). -/
def pyStrip (s : String) : List Char :=
  ((s.data.dropWhile pyIsSpace).reverse.dropWhile pyIsSpace).reverse

/-- Split a character list on every occurrence of a separator, keeping
empty pieces: the semantics of Python `str.split(sep)` for a one-character
separator. -/
def splitOnChar (sep : Char) : List Char → List (List Char)
  | [] => [[]]
  | c :: rest =>
    match splitOnChar sep rest with
    | [] => []
    | piece :: pieces =>
      if c = sep then [] :: piece :: pieces else (c :: piece) :: pieces

/-- Model of Python `s.split(sep)` for a one-character separator. -/
def pySplit (s : String) (sep : Char) : List String :=
  (splitOnChar sep s.data).map String.mk

/-- Model of Python `s.startswith(pre)`. -/
def pyStartsWith (s pre : String) : Bool := pre.data.isPrefixOf s.data

/-- Model of CPython `int(s)` (base 10): optional surrounding whitespace,
optional sign, digits with underscores between digits. -/
def pyInt (s : String) : Option Int :=
  match pyStrip s with
  | '+' :: rest => if digitsU rest then some (Int.ofNat (digitsVal rest)) else none
  | '-' :: rest => if digitsU rest then some (-(Int.ofNat (digitsVal rest))) else none
  | cs => if digitsU cs then some (Int.ofNat (digitsVal cs)) else none

/-- Split a character list at the first occurrence of a separator
satisfying `p`; returns the prefix, the separator and the suffix. -/
def breakAtP (p : Char → Bool) (cs : List Char) : Option (List Char × Char × List Char) :=
  match cs.span (fun c => !(p c)) with
  | (_, []) => none
  | (pre, c :: post) => some (pre, c, post)

/-- Mantissa and exponent assembly for `float(s)`: value is
`sign * (I*10^fc + F) * 10^(E - fc)` where `fc` is the number of
fractional digits (the power of ten split on the sign of the net
exponent, so the whole computation stays in `Nat`/`mkRat`). -/
def pyFloatVal (sign : ℚ) (ip fp : List Char) (e : Int) : ℚ :=
  let mant : Nat := digitsVal ip * 10 ^ digitsCount fp + digitsVal fp
  match e - (digitsCount fp : Int) with
  | Int.ofNat k => sign * mkRat (Int.ofNat (mant * 10 ^ k)) 1
  | Int.negSucc k => sign * mkRat (Int.ofNat mant) (10 ^ (k + 1))

/-- Exponent part of a float literal: optional sign, then a digit run. -/
def pyFloatExp (cs : List Char) : Option Int :=
  match cs with
  | '+' :: rest => if digitsU rest then some (Int.ofNat (digitsVal rest)) else none
  | '-' :: rest => if digitsU rest then some (-(Int.ofNat (digitsVal rest))) else none
  | _ => if digitsU cs then some (Int.ofNat (digitsVal cs)) else none

/-- Mantissa of a float literal: `digits`, `digits.`, `.digits` or
`digits.digits`, each digit run allowing internal underscores. -/
def pyFloatMant (cs : List Char) : Option (List Char × List Char) :=
  match breakAtP (· == '.') cs with
  | none => if digitsU cs then some (cs, []) else none
  | some (ip, _, fp) =>
    if (ip.isEmpty || digitsU ip) && (fp.isEmpty || digitsU fp)
        && !(ip.isEmpty && fp.isEmpty) then
      some (ip, fp)
    else none

/-- Model of CPython `float(s)` on finite decimal/scientific literals:
optional surrounding whitespace, optional sign, mantissa, optional
exponent.  The result is the exact decimal value as a rational. -/
def pyFloat (s : String) : Option ℚ :=
  let cs := pyStrip s
  let (sign, cs) : ℚ × List Char :=
    match cs with
    | '+' :: rest => (1, rest)
    | '-' :: rest => (-1, rest)
    | _ => (1, cs)
  match breakAtP (fun c => c == 'e' || c == 'E') cs with
  | none => do
    let (ip, fp) ← pyFloatMant cs
    pure (pyFloatVal sign ip fp 0)
  | some (mant, _, expPart) => do
    let (ip, fp) ← pyFloatMant mant
    let e ← pyFloatExp expPart
    pure (pyFloatVal sign ip fp e)

/-! ### `ipaddress.ip_address` -/

/-- Parsed IP address.  `v4` holds the 32-bit integer value, `v6` the
128-bit integer value and the optional scope (zone) identifier, mirroring
`IPv4Address`/`IPv6Address` equality (which compares the packed integer,
the version, and for v6 the scope id). -/
inductive IpAddr where
  | v4 (n : Nat)
  | v6 (n : Nat) (zone : Option String)
deriving DecidableEq

/-- Model of `IPv4Address._parse_octet`: nonempty, ASCII digits only, at
most 3 characters, no leading zero, value at most 255. -/
def parseOctet (s : String) : Option Nat :=
  let cs := s.data
  if cs.isEmpty then none
  else if !(cs.all (·.isDigit)) then none
  else if cs.length > 3 then none
  else if s ≠ "0" ∧ cs.headD '0' = '0' then none
  else
    let v := cs.foldl (fun a c => a * 10 + dval c) 0
    if v > 255 then none else some v

/-- Model of `IPv4Address._ip_int_from_string`: exactly 4 dot-separated
octets. -/
def pyParseV4 (s : String) : Option Nat :=
  match pySplit s '.' with
  | [a, b, c, d] => do
    let va ← parseOctet a
    let vb ← parseOctet b
    let vc ← parseOctet c
    let vd ← parseOctet d
    pure (((va * 256 + vb) * 256 + vc) * 256 + vd)
  | _ => none

/-- ASCII hexadecimal digit test (the character set CPython uses for
hextets). -/
def isHexChar (c : Char) : Bool :=
  c.isDigit || (97 ≤ c.toNat && c.toNat ≤ 102) || (65 ≤ c.toNat && c.toNat ≤ 70)

/-- Value of one hexadecimal digit. -/
def hexVal (c : Char) : Nat :=
  if c.isDigit then c.toNat - 48
  else if 97 ≤ c.toNat then c.toNat - 87
  else c.toNat - 55

/-- Model of `IPv6Address._parse_hextet`: one to four hex digits. -/
def parseHextet (s : String) : Option Nat :=
  let cs := s.data
  if cs.isEmpty then none
  else if !(cs.all isHexChar) then none
  else if cs.length > 4 then none
  else some (cs.foldl (fun a c => a * 16 + hexVal c) 0)

/-- Lowercase hexadecimal rendering of a natural number (CPython `"%x"`). -/
def natToHex (n : Nat) : String := String.mk (Nat.toDigits 16 n)

/-- Accumulate 16-bit hextets into the 128-bit address integer. -/
def foldHextets (vs : List Nat) : Nat :=
  vs.foldl (fun a h => a * 65536 + h) 0

/-- Model of `IPv6Address._ip_int_from_string`, including the embedded
IPv4 suffix and the single `::` compression. -/
def v6IntFromString (s : String) : Option Nat :=
  if s = "" then none
  else
    let parts0 := pySplit s ':'
    if parts0.length < 3 then none
    else do
      let parts ←
        if ((parts0.getLastD "").data.contains '.') then
          match pyParseV4 (parts0.getLastD "") with
          | none => none
          | some v4 =>
            some (parts0.dropLast ++
              [natToHex ((v4 >>> 16) &&& 0xFFFF), natToHex (v4 &&& 0xFFFF)])
        else some parts0
      let n := parts.length
      if n > 9 then none
      else
        match (List.range n).filter
            (fun i => decide (0 < i) && decide (i < n - 1) && (parts.getD i "" == "")) with
        | _ :: _ :: _ => none
        | [i] =>
          let partsHi := if parts.getD 0 "" = "" then i - 1 else i
          if parts.getD 0 "" = "" ∧ partsHi ≠ 0 then none
          else
            let partsLo0 := n - i - 1
            let partsLo := if parts.getD (n - 1) "" = "" then partsLo0 - 1 else partsLo0
            if parts.getD (n - 1) "" = "" ∧ partsLo ≠ 0 then none
            else if partsHi + partsLo ≥ 8 then none
            else do
              let hiVals ← (parts.take partsHi).mapM parseHextet
              let loVals ← (parts.drop (n - partsLo)).mapM parseHextet
              let skipped := 8 - (partsHi + partsLo)
              pure (foldHextets hiVals * 65536 ^ (skipped + loVals.length) + foldHextets loVals)
        | [] =>
          if n ≠ 8 then none
          else do
            let vals ← parts.mapM parseHextet
            pure (foldHextets vals)

/-- Model of `IPv6Address._split_scope_id`: the part after the first `%`
is the scope id, which must be nonempty and contain no further `%`. -/
def splitScope (s : String) : Option (String × Option String) :=
  match pySplit s '%' with
  | [a] => some (a, none)
  | [a, z] => if z = "" then none else some (a, some z)
  | _ => none

/-- Model of `IPv6Address` construction from a string. -/
def pyParseV6 (s : String) : Option (Nat × Option String) := do
  let (addr, zone) ← splitScope s
  let n ← v6IntFromString addr
  pure (n, zone)

/-- Model of `ipaddress.ip_address`: try IPv4 first, then IPv6, else a
`ValueError`. -/
def pyIpAddress (s : String) : Option IpAddr :=
  match pyParseV4 s with
  | some n => some (IpAddr.v4 n)
  | none =>
    match pyParseV6 s with
    | some (n, zone) => some (IpAddr.v6 n zone)
    | none => none

/-! ### `datetime.strptime` for the format `%Y-%m-%dT%H:%M:%S.%fZ`

CPython compiles the format to a regular expression
(`\d\d\d\d`-`(1[0-2]|0[1-9]|[1-9])`-`(3[01]|[1-2]\d|0[1-9]|[1-9])`
`T(2[0-3]|[0-1]\d|\d):([0-5]\d|\d):([0-5]\d|\d)\.[0-9]{1,6}Z`, compiled
with `IGNORECASE`), requires the match to consume the whole string, and
then validates the result through the `datetime` constructor (which
rejects year 0 and days beyond the month length).  The candidate lists
below enumerate each field's regex alternatives in preference order; the
list monad then yields exactly the backtracking regex's preferred match
first. -/

/-- Parsed timestamp (always UTC in the analyzed code). -/
structure PyDateTime where
  year : Nat
  month : Nat
  day : Nat
  hour : Nat
  minute : Nat
  second : Nat
  microsecond : Nat
deriving DecidableEq

/-- Literal character of the format, matched case-insensitively
(CPython compiles the strptime regex with `IGNORECASE`). -/
def lit (c : Char) (cs : List Char) : List (List Char) :=
  match cs with
  | a :: rest => if a.toLower = c.toLower then [rest] else []
  | [] => []

/-- Field `%Y`: exactly four digits. -/
def pYear (cs : List Char) : List (Nat × List Char) :=
  match cs with
  | a :: b :: c :: d :: rest =>
    if a.isDigit && b.isDigit && c.isDigit && d.isDigit then
      [(((dval a * 10 + dval b) * 10 + dval c) * 10 + dval d, rest)]
    else []
  | _ => []

/-- Field `%m`: alternatives `1[0-2]`, `0[1-9]`, `[1-9]` in order. -/
def pMonth (cs : List Char) : List (Nat × List Char) :=
  (match cs with
   | a :: b :: rest =>
     (if a = '1' && (b = '0' || b = '1' || b = '2') then [(10 + dval b, rest)] else []) ++
     (if a = '0' && b.isDigit && b ≠ '0' then [(dval b, rest)] else [])
   | _ => []) ++
  (match cs with
   | a :: rest => if a.isDigit && a ≠ '0' then [(dval a, rest)] else []
   | _ => [])

/-- Field `%d`: alternatives `3[01]`, `[1-2]\d`, `0[1-9]`, `[1-9]`. -/
def pDay (cs : List Char) : List (Nat × List Char) :=
  (match cs with
   | a :: b :: rest =>
     (if a = '3' && (b = '0' || b = '1') then [(30 + dval b, rest)] else []) ++
     (if (a = '1' || a = '2') && b.isDigit then [(dval a * 10 + dval b, rest)] else []) ++
     (if a = '0' && b.isDigit && b ≠ '0' then [(dval b, rest)] else [])
   | _ => []) ++
  (match cs with
   | a :: rest => if a.isDigit && a ≠ '0' then [(dval a, rest)] else []
   | _ => [])

/-- Field `%H`: alternatives `2[0-3]`, `[0-1]\d`, `\d`. -/
def pHour (cs : List Char) : List (Nat × List Char) :=
  (match cs with
   | a :: b :: rest =>
     (if a = '2' && (b = '0' || b = '1' || b = '2' || b = '3') then [(20 + dval b, rest)] else []) ++
     (if (a = '0' || a = '1') && b.isDigit then [(dval a * 10 + dval b, rest)] else [])
   | _ => []) ++
  (match cs with
   | a :: rest => if a.isDigit then [(dval a, rest)] else []
   | _ => [])

/-- Fields `%M` and `%S`: alternatives `[0-5]\d`, `\d`. -/
def pMinSec (cs : List Char) : List (Nat × List Char) :=
  (match cs with
   | a :: b :: rest =>
     if a.isDigit && dval a ≤ 5 && b.isDigit then [(dval a * 10 + dval b, rest)] else []
   | _ => []) ++
  (match cs with
   | a :: rest => if a.isDigit then [(dval a, rest)] else []
   | _ => [])

/-- Field `%f`: one to six digits, greedy (longest candidate first); the
value is left-justified to microseconds. -/
def pFrac (cs : List Char) : List (Nat × List Char) :=
  let ds := (cs.takeWhile (·.isDigit)).take 6
  (List.range ds.length).map (fun i =>
    let t := ds.take (ds.length - i)
    (digitsVal t * 10 ^ (6 - t.length), cs.drop t.length))

/-- Candidate matches of the whole format, in regex preference order. -/
def strptimeCandidates (cs : List Char) : List PyDateTime := do
  let (y, cs) ← pYear cs
  let cs ← lit '-' cs
  let (mo, cs) ← pMonth cs
  let cs ← lit '-' cs
  let (d, cs) ← pDay cs
  let cs ← lit 'T' cs
  let (h, cs) ← pHour cs
  let cs ← lit ':' cs
  let (mi, cs) ← pMinSec cs
  let cs ← lit ':' cs
  let (s, cs) ← pMinSec cs
  let cs ← lit '.' cs
  let (f, cs) ← pFrac cs
  let cs ← lit 'Z' cs
  if cs.isEmpty then pure ⟨y, mo, d, h, mi, s, f⟩ else []

/-- Gregorian leap year test, as in `datetime`. -/
def isLeap (y : Nat) : Bool := y % 4 = 0 && (y % 100 ≠ 0 || y % 400 = 0)

/-- Days in a month, as validated by the `datetime` constructor. -/
def daysInMonth (y m : Nat) : Nat :=
  if m = 2 then (if isLeap y then 29 else 28)
  else if m = 4 ∨ m = 6 ∨ m = 9 ∨ m = 11 then 30
  else 31

/-- Model of `datetime.strptime(s, "%Y-%m-%dT%H:%M:%S.%fZ")`: the regex's
preferred full match, validated by the `datetime` constructor. -/
def pyStrptime (s : String) : Option PyDateTime :=
  match strptimeCandidates s.data with
  | [] => none
  | t :: _ =>
    if 1 ≤ t.year && t.day ≤ daysInMonth t.year t.month then some t else none

end Analyze

namespace Analyze

/-! ### Data model (`analyze.py` lines 18-84) -/

/-- Event keyword (`ConnectionType` enum, lines 18-21). -/
inductive ConnectionType where
  | unknown
  | accept
  | close
deriving DecidableEq

/-- One observed lifecycle transition (`ConnectionEvent` dataclass,
lines 24-34). -/
structure ConnectionEvent where
  time : PyDateTime
  type : ConnectionType
  ip : IpAddr
  fd : Int
  duration : Option ℚ
deriving DecidableEq

/-- Key identifying the current connection (`ConnectionEvent.conn`,
lines 32-34). -/
def ConnectionEvent.conn (e : ConnectionEvent) : IpAddr × Int := (e.ip, e.fd)

/-- Accessor for the second `=`-separated piece of a field
(`split("=")[1]`); an absent piece is an `IndexError`. -/
def index1 (xs : List String) : Except PyErr String :=
  match xs with
  | _ :: x :: _ => .ok x
  | _ => .error .indexError

/-- Keyword match of `from_journal` (lines 50-58): the event kind from
field 1, the parsed duration for `CLOSE` lines, and the stdout diagnostic
for an unmatched keyword. -/
def kindAndDuration (f1 f5 : String) :
    List String × Except PyErr (ConnectionType × Option ℚ) :=
  if f1 = "ACCEPT" then ([], .ok (.accept, none))
  else if f1 = "CLOSE" then
    match index1 (pySplit f5 '=') with
    | .error e => ([], .error e)
    | .ok dStr =>
      match pyFloat dStr with
      | none => ([], .error .valueError)
      | some d => ([], .ok (.close, some d))
  else (["Unmatched connection type " ++ f1], .ok (.unknown, none))

/-- Model of `ConnectionEvent.from_journal` (lines 36-63).  The first
component collects the lines printed to stdout (the unmatched-keyword
diagnostic of line 57); the second is the returned value or the raised
exception.  Evaluation order follows the source: silent skips first
(lines 40-44), then the address (line 46), the descriptor (line 47), the
keyword match with the duration for `CLOSE` (lines 50-58), and finally
the timestamp (line 60). -/
def ConnectionEvent.from_journal (msg : String) :
    List String × Except PyErr (Option ConnectionEvent) :=
  match pySplit msg ' ' with
  | f0 :: f1 :: f2 :: _f3 :: f4 :: f5 :: _ =>
    if pyStartsWith f2 "host=" then
      match index1 (pySplit f2 '=') with
      | .error e => ([], .error e)
      | .ok ipStr =>
        match pyIpAddress ipStr with
        | none => ([], .error .valueError)
        | some ip =>
          match index1 (pySplit f4 '=') with
          | .error e => ([], .error e)
          | .ok fdStr =>
            match pyInt fdStr with
            | none => ([], .error .valueError)
            | some fd =>
              match kindAndDuration f1 f5 with
              | (lines, .error e) => (lines, .error e)
              | (lines, .ok (ty, dur)) =>
                match pyStrptime f0 with
                | none => (lines, .error .valueError)
                | some t => (lines, .ok (some ⟨t, ty, ip, fd, dur⟩))
    else ([], .ok none)
  | _ => ([], .ok none)

/-- Correlated lifecycle of one accepted connection (`Connection`
dataclass, lines 66-84). -/
structure Connection where
  events : List ConnectionEvent
deriving DecidableEq

/-- Model of `Connection.add_event` (lines 70-78): an empty event list is
replaced by the singleton; otherwise the new event must match the LAST
event's `ip` and `fd` (a mismatch raises `ValueError`) and is appended. -/
def Connection.add_event (c : Connection) (event : ConnectionEvent) :
    Except PyErr Connection :=
  match c.events.getLast? with
  | none => .ok ⟨[event]⟩
  | some lastEv =>
    if lastEv.ip ≠ event.ip then .error .valueError
    else if lastEv.fd ≠ event.fd then .error .valueError
    else .ok ⟨c.events ++ [event]⟩

/-- Model of `Connection.get_ip` (lines 80-81); `events[0]` raises
`IndexError` on an empty list. -/
def Connection.get_ip (c : Connection) : Except PyErr IpAddr :=
  match c.events.head? with
  | none => .error .indexError
  | some e => .ok e.ip

/-- Model of `Connection.get_duration` (lines 83-84); `events[-1]` raises
`IndexError` on an empty list. -/
def Connection.get_duration (c : Connection) : Except PyErr (Option ℚ) :=
  match c.events.getLast? with
  | none => .error .indexError
  | some e => .ok e.duration

/-! ### Python dict model

The `open_connections` dict and the `grouped_connections` dict are
insertion-ordered maps with unique keys; they are modelled as association
lists where assigning to a fresh key appends and assigning to a present
key updates in place, exactly the iteration-order semantics of `dict`. -/

/-- Dict lookup (`d.get(k)` / `k in d`): first entry with the key. -/
def lookupBy {α β : Type} [DecidableEq α] : List (α × β) → α → Option β
  | [], _ => none
  | kv :: rest, k => if kv.1 = k then some kv.2 else lookupBy rest k

/-- Dict assignment `d[k] = v`: in-place update of a present key,
append of a fresh key. -/
def upsertBy {α β : Type} [DecidableEq α] : List (α × β) → α → β → List (α × β)
  | [], k, v => [(k, v)]
  | kv :: rest, k, v => if kv.1 = k then (k, v) :: rest else kv :: upsertBy rest k v

/-- Dict deletion `del d[k]` (called only with a present key in the
source). -/
def eraseBy {α β : Type} [DecidableEq α] (m : List (α × β)) (k : α) : List (α × β) :=
  m.filter (fun kv => decide (kv.1 ≠ k))

/-! ### Connection correlator (`main`, lines 204-222) -/

/-- Key of the open-connection dict. -/
abbrev ConnKey := IpAddr × Int

/-- Correlator state: `closed_connections` list and `open_connections`
dict (lines 204-205). -/
structure CorrState where
  closed_connections : List Connection
  open_connections : List (ConnKey × Connection)
deriving DecidableEq

/-- Initial state (lines 204-205). -/
def initState : CorrState := ⟨[], []⟩

/-- Model of one iteration of the event loop body (lines 209-222).

On `ACCEPT` (lines 209-214): append to the open connection for the key if
present, else register a fresh single-event connection.

On `CLOSE` (lines 216-222): the source subscripts
`open_connections[event.conn()]`, which raises `KeyError` when the key is
absent; the guarded `print("Closing leftover connection ...")` branch is
unreachable because a `Connection` dataclass instance is always truthy.
When the key is present the event is appended, the connection moves to
`closed_connections`, and the key is deleted.

The source tests `event.type` with two consecutive `if` statements; as
the type is exactly one of the three enum values, at most one branch can
fire and the pair of tests is this three-way case. -/
def processEvent (st : CorrState) (event : ConnectionEvent) :
    Except PyErr CorrState :=
  match event.type with
  | ConnectionType.accept =>
    match lookupBy st.open_connections event.conn with
    | some conn =>
      match conn.add_event event with
      | .error e => .error e
      | .ok conn2 =>
        .ok ⟨st.closed_connections, upsertBy st.open_connections event.conn conn2⟩
    | none =>
      .ok ⟨st.closed_connections, upsertBy st.open_connections event.conn ⟨[event]⟩⟩
  | ConnectionType.close =>
    match lookupBy st.open_connections event.conn with
    | none => Except.error PyErr.keyError
    | some connection =>
      match connection.add_event event with
      | .error e => .error e
      | .ok connection2 =>
        .ok ⟨st.closed_connections ++ [connection2],
             eraseBy st.open_connections event.conn⟩
  | ConnectionType.unknown => .ok st

/-- Sequential processing of a list of already-parsed events. -/
def processEvents : List ConnectionEvent → CorrState → Except PyErr CorrState
  | [], st => .ok st
  | e :: rest, st =>
    match processEvent st e with
    | .error err => .error err
    | .ok st2 => processEvents rest st2

/-- Model of the message loop of `main` (lines 206-222): parse each
journal message, skip non-events, feed events to the correlator, and
collect the stdout diagnostics emitted while parsing. -/
def runLoop : List String → CorrState → List String →
    Except PyErr (CorrState × List String)
  | [], st, out => .ok (st, out)
  | msg :: rest, st, out =>
    match ConnectionEvent.from_journal msg with
    | (_, .error e) => .error e
    | (lines, .ok none) => runLoop rest st (out ++ lines)
    | (lines, .ok (some event)) =>
      match processEvent st event with
      | .error e => .error e
      | .ok st2 => runLoop rest st2 (out ++ lines)

end Analyze

namespace Analyze

/-! ### Report rendering primitives (`analyze.py` lines 171-183, 186-193,
224-255) -/

/-- Model of `human_readable_seconds` (lines 171-183).  Python `//` and
`%` on ints are floor division and floor remainder (`Int.fdiv` /
`Int.fmod`). -/
def human_readable_seconds (seconds : Int) : String :=
  if seconds < 60 then toString seconds ++ " second(s)"
  else if seconds < 3600 then
    toString (seconds.fdiv 60) ++ " minute(s), " ++
    toString (seconds.fmod 60) ++ " second(s)"
  else
    toString (seconds.fdiv 3600) ++ " hour(s), " ++
    toString ((seconds.fmod 3600).fdiv 60) ++ " minute(s), " ++
    toString ((seconds.fmod 3600).fmod 60) ++ " second(s)"

/-- Model of Python `int(x)` on a float: truncation toward zero. -/
def pyIntOfFloat (q : ℚ) : Int := if 0 ≤ q then q.floor else q.ceil

/-- Model of `str(ip)` for an `IPv4Address`: dotted quad of the four
bytes. -/
def v4ToString (n : Nat) : String :=
  toString ((n >>> 24) &&& 255) ++ "." ++ toString ((n >>> 16) &&& 255) ++ "." ++
  toString ((n >>> 8) &&& 255) ++ "." ++ toString (n &&& 255)

/-- Hextet strings of a 128-bit IPv6 value, most significant first
(`IPv6Address._string_from_ip_int` before compression). -/
def v6Hextets (n : Nat) : List String :=
  (List.range 8).map (fun i => natToHex ((n >>> (16 * (7 - i))) &&& 0xFFFF))

/-- Length of the run of `"0"` hextets starting at index `i`. -/
def runLenAt (hx : List String) (i : Nat) : Nat :=
  ((hx.drop i).takeWhile (· == "0")).length

/-- First longest run of `"0"` hextets of length at least 2, as located
by `IPv6Address._compress_hextets` (a later run replaces the best only
when strictly longer). -/
def bestZeroRun (hx : List String) : Option (Nat × Nat) :=
  let starts := (List.range hx.length).filter (fun i =>
    (hx.getD i "" == "0") && (i == 0 || !(hx.getD (i - 1) "" == "0")))
  match starts.foldl (fun best i =>
      match best with
      | none => some (i, runLenAt hx i)
      | some (bs, bl) =>
        if runLenAt hx i > bl then some (i, runLenAt hx i) else some (bs, bl))
    none with
  | some (s, l) => if l > 1 then some (s, l) else none
  | none => none

/-- Model of `IPv6Address._compress_hextets` followed by the `:` join:
the best zero run (when of length at least 2) collapses to `::`. -/
def v6Compress (hx : List String) : String :=
  match bestZeroRun hx with
  | none => String.intercalate ":" hx
  | some (s, l) =>
    String.intercalate ":" (hx.take s) ++ "::" ++ String.intercalate ":" (hx.drop (s + l))

/-- Model of `str(ip)` (`IPv4Address.__str__` / `IPv6Address.__str__`,
the latter appending `%scope` when a scope id is present). -/
def ipToString : IpAddr → String
  | .v4 n => v4ToString n
  | .v6 n zone =>
    let base := v6Compress (v6Hextets n)
    match zone with
    | none => base
    | some z => base ++ "%" ++ z

/-- Model of `repr(ip)`, as embedded by the f-string `{event=}` of
line 228. -/
def reprIp : IpAddr → String
  | .v4 n => "IPv4Address(\x27" ++ v4ToString n ++ "\x27)"
  | .v6 n zone => "IPv6Address(\x27" ++ ipToString (.v6 n zone) ++ "\x27)"

/-- Model of `repr((ip, fd))` for the open-connection key tuple. -/
def reprConnKey (k : ConnKey) : String :=
  "(" ++ reprIp k.1 ++ ", " ++ toString k.2 ++ ")"

/-! ### Aggregation and report (`main`, lines 224-255) -/

/-- Stdout lines of the currently-open section (lines 224-228): the
header when the dict is nonempty, then one line per key in insertion
order (the loop variable `event` ranges over the dict's KEYS, so each
line shows the repr of the `(address, descriptor)` tuple). -/
def openSectionLines (st : CorrState) : List String :=
  (if st.open_connections.isEmpty then [] else ["", "Currently open connections:"]) ++
  st.open_connections.map (fun kv => "\tevent=" ++ reprConnKey kv.1)

/-- Model of the grouping loop (lines 233-238): an insertion-ordered dict
from `get_ip()` to the list of that address's connections, built from the
accumulator `m` (the loop starts from the empty dict `{}`). -/
def groupByIp : List Connection → List (IpAddr × List Connection) →
    Except PyErr (List (IpAddr × List Connection))
  | [], m => .ok m
  | conn :: rest, m =>
    match conn.get_ip with
    | .error e => .error e
    | .ok ip =>
      match lookupBy m ip with
      | some conns => groupByIp rest (upsertBy m ip (conns ++ [conn]))
      | none => groupByIp rest (m ++ [(ip, [conn])])

/-- Stable insertion of a group into an already length-sorted list: the
new element passes every strictly shorter element and stops in front of
the first element of at least its length.  An earlier element of equal
length therefore stays in front, which is exactly the stability contract
of Python's `sorted`. -/
def insLen (g : List Connection) : List (List Connection) → List (List Connection)
  | [] => [g]
  | h :: t => if h.length < g.length then h :: insLen g t else g :: h :: t

/-- Stable ascending sort by group size, the model of
`sorted(grouped_connections.values(), key=len)`.  Python's `sorted` is
THE stable ascending sort by the key, and a stable ascending sort is
uniquely determined by its input, so this structurally recursive
insertion sort (stable by `insLen`'s strict descent) computes the same
list as the library sort. -/
def sortByLen : List (List Connection) → List (List Connection)
  | [] => []
  | h :: t => insLen h (sortByLen t)

/-- Model of `reversed(sorted(grouped_connections.values(), key=len))`
(line 241). -/
def orderedGroups (closed : List Connection) :
    Except PyErr (List (List Connection)) :=
  match groupByIp closed [] with
  | .error e => .error e
  | .ok m => .ok (List.reverse (sortByLen (m.map Prod.snd)))

/-- Model of `sum(conn.get_duration() for conn in conns)` (line 243):
Python `sum` starts from the int `0` (the accumulator argument) and adds
each generator item in order; adding `None` raises `TypeError`. -/
def sumDurations : List Connection → ℚ → Except PyErr ℚ
  | [], acc => .ok acc
  | conn :: rest, acc =>
    match conn.get_duration with
    | .error e => .error e
    | .ok none => .error PyErr.typeError
    | .ok (some q) => sumDurations rest (acc + q)

/-- Model of one iteration of the report loop (lines 241-255) with
geolocation enrichment disabled (the `args.geo_ip` branch calls the
external lookup service, outside the modelled core). -/
def renderGroup (conns : List Connection) : Except PyErr String :=
  match conns.head? with
  | none => .error PyErr.indexError
  | some c0 =>
    match c0.get_ip with
    | .error e => .error e
    | .ok ip =>
      match sumDurations conns 0 with
      | .error e => .error e
      | .ok d =>
        .ok (ipToString ip ++ ": " ++ toString conns.length ++
             " connections, spent " ++ human_readable_seconds (pyIntOfFloat d))

/-- Sequential rendering of all groups (the report loop, lines 241-255);
the first exception aborts the run. -/
def renderGroups : List (List Connection) → Except PyErr (List String)
  | [] => .ok []
  | g :: rest =>
    match renderGroup g with
    | .error e => .error e
    | .ok line =>
      match renderGroups rest with
      | .error e => .error e
      | .ok lines => .ok (line :: lines)

/-- Model of `main` after argument/time-range handling, with the journal
messages supplied as input and geolocation disabled: the stdout lines of
a successful run, or the uncaught exception.  (On an exception Python
would already have printed a prefix of these lines; the model returns
output only for completed runs.) -/
def mainRun (msgs : List String) : Except PyErr (List String) :=
  match runLoop msgs initState [] with
  | .error e => .error e
  | .ok (st, out) =>
    match orderedGroups st.closed_connections with
    | .error e => .error e
    | .ok groups =>
      match renderGroups groups with
      | .error e => .error e
      | .ok groupLines =>
        .ok (out ++ openSectionLines st ++
             ["", "Closed connections: " ++ toString st.closed_connections.length] ++
             groupLines)

end Analyze

namespace Analyze

/-! ### Characterizations and fixtures used by the verification -/

/-- Fields of a journal message, as split by `from_journal` (line 39). -/
def msgFields (msg : String) : List String := pySplit msg ' '

/-- Structural-skip condition of `from_journal` (lines 40-44): fewer than
six space-separated fields, or field 2 not starting with `host=`. -/
def structuralSkip (msg : String) : Prop :=
  (msgFields msg).length < 6 ∨ ¬ pyStartsWith ((msgFields msg).getD 2 "") "host="

instance (msg : String) : Decidable (structuralSkip msg) := by
  unfold structuralSkip; infer_instance

/-- Value after the first `=` of a field, when present (`split("=")[1]`). -/
def eqPiece (s : String) : Option String :=
  match pySplit s '=' with
  | _ :: v :: _ => some v
  | _ => none

/-- Address-field failure: the value after `host=` is not an IP address
(line 46 raises). -/
def ipFailure (msg : String) : Bool :=
  match eqPiece ((msgFields msg).getD 2 "") with
  | some v => (pyIpAddress v).isNone
  | none => true

/-- Descriptor-field failure: field 4 has no `=` piece or a non-integer
value (line 47 raises `IndexError` or `ValueError`). -/
def fdFailure (msg : String) : Bool :=
  match eqPiece ((msgFields msg).getD 4 "") with
  | some v => (pyInt v).isNone
  | none => true

/-- Duration-field failure, relevant only for `CLOSE` lines: field 5 has
no `=` piece or a non-float value (line 55 raises). -/
def durFailure (msg : String) : Bool :=
  ((msgFields msg).getD 1 "" == "CLOSE") &&
  (match eqPiece ((msgFields msg).getD 5 "") with
   | some v => (pyFloat v).isNone
   | none => true)

/-- Timestamp failure: field 0 does not parse with the strptime format
(line 60 raises). -/
def tsFailure (msg : String) : Bool :=
  (pyStrptime ((msgFields msg).getD 0 "")).isNone

/-- Any fatal field failure of a structurally well-formed line. -/
def fieldFailure (msg : String) : Bool :=
  ipFailure msg || fdFailure msg || durFailure msg || tsFailure msg

/-- Correlation invariant of a `Connection`: every event carries the
address and descriptor of the first event. -/
def Connection.sharesFirst (c : Connection) : Prop :=
  ∀ e ∈ c.events, ∀ f, c.events.head? = some f → e.ip = f.ip ∧ e.fd = f.fd

/-- Journal fixtures: the spec's scenario lines. -/
def msgAccept : String := "2025-08-01T10:00:00.000000Z ACCEPT host=1.2.3.4 n fd=5 x"

def msgClose : String := "2025-08-01T10:00:05.000000Z CLOSE host=1.2.3.4 n fd=5 duration=5.0"

def msgClose59 : String := "2025-08-01T10:00:05.000000Z CLOSE host=1.2.3.4 n fd=5 duration=5.9"

def msgBadTs : String := "BADTS ACCEPT host=1.2.3.4 n fd=5 x"

/-- Event and connection fixtures for concrete theorems. -/
def ts0 : PyDateTime := ⟨2025, 8, 1, 10, 0, 0, 0⟩

def ipA : IpAddr := IpAddr.v4 16909060

def ipB : IpAddr := IpAddr.v4 84281096

def evAccA : ConnectionEvent := ⟨ts0, ConnectionType.accept, ipA, 5, none⟩

def evCloA : ConnectionEvent := ⟨ts0, ConnectionType.close, ipA, 5, some 5⟩

def evCloB : ConnectionEvent := ⟨ts0, ConnectionType.close, ipB, 6, some 7⟩

def connA : Connection := ⟨[evAccA, evCloA]⟩

def connB : Connection := ⟨[evCloB]⟩

/-- Timestamp of the scenario close line (10:00:05). -/
def tsC : PyDateTime := ⟨2025, 8, 1, 10, 0, 5, 0⟩

/-- Event value that `from_journal` produces for `msgClose`. -/
def evCloParsed : ConnectionEvent := ⟨tsC, ConnectionType.close, ipA, 5, some 5⟩

/-- Close event carrying the fractional duration 5.9 seconds. -/
def evClo59 : ConnectionEvent := ⟨tsC, ConnectionType.close, ipA, 5, some (59 / 10)⟩

/-- Closed connection whose total duration is the fractional 5.9. -/
def cn59 : Connection := ⟨[evAccA, evClo59]⟩

end Analyze

namespace Analyze

/-- Correlator state invariant, established by construction from the
empty initial state: every open connection's last event carries its key,
and every closed connection ends in a `CLOSE` event carrying a duration. -/
def StateInv (st : CorrState) : Prop :=
  (∀ p ∈ st.open_connections, ∃ l, p.2.events.getLast? = some l ∧ l.conn = p.1) ∧
  (∀ c ∈ st.closed_connections, ∃ es e, c.events = es ++ [e] ∧
     e.type = ConnectionType.close ∧ ∃ q, e.duration = some q)

/-! ## Lemma layer -/

/-! ### Dict lemmas -/

theorem lookupBy_upsert_self {α β : Type} [DecidableEq α]
    (m : List (α × β)) (k : α) (v : β) :
    lookupBy (upsertBy m k v) k = some v := by
  induction m with
  | nil => simp [upsertBy, lookupBy]
  | cons kv rest ih =>
    by_cases h : kv.1 = k
    · simp [upsertBy, h, lookupBy]
    · simp [upsertBy, h, lookupBy, ih]

theorem lookupBy_upsert_ne {α β : Type} [DecidableEq α]
    (m : List (α × β)) (k k' : α) (v : β) (hne : k' ≠ k) :
    lookupBy (upsertBy m k v) k' = lookupBy m k' := by
  have hne2 : k ≠ k' := Ne.symm hne
  induction m with
  | nil => simp [upsertBy, lookupBy, hne2]
  | cons kv rest ih =>
    by_cases h : kv.1 = k
    · have hkv : ¬(kv.1 = k') := by rw [h]; exact hne2
      simp only [upsertBy, if_pos h, lookupBy, if_neg hne2, if_neg hkv]
    · simp only [upsertBy, if_neg h, lookupBy]
      by_cases h2 : kv.1 = k'
      · rw [if_pos h2, if_pos h2]
      · rw [if_neg h2, if_neg h2, ih]

theorem lookupBy_erase_self {α β : Type} [DecidableEq α]
    (m : List (α × β)) (k : α) :
    lookupBy (eraseBy m k) k = none := by
  induction m with
  | nil => simp [eraseBy, lookupBy]
  | cons kv rest ih =>
    by_cases h : kv.1 = k
    · simpa [eraseBy, h] using ih
    · simpa [eraseBy, lookupBy, h] using ih

theorem lookupBy_erase_ne {α β : Type} [DecidableEq α]
    (m : List (α × β)) (k k' : α) (hne : k' ≠ k) :
    lookupBy (eraseBy m k) k' = lookupBy m k' := by
  induction m with
  | nil => simp [eraseBy, lookupBy]
  | cons kv rest ih =>
    simp only [eraseBy, List.filter_cons] at ih ⊢
    by_cases h : kv.1 = k
    · have h2 : ¬(kv.1 = k') := by rw [h]; exact Ne.symm hne
      have hd : (decide (kv.1 ≠ k) : Bool) = false := by simp [h]
      rw [hd]
      simp only [Bool.false_eq_true, if_false, ih, lookupBy, if_neg h2]
    · have hd : (decide (kv.1 ≠ k) : Bool) = true := by simp [h]
      rw [hd]
      simp only [if_true, lookupBy, ih]

theorem mem_upsertBy {α β : Type} [DecidableEq α]
    (m : List (α × β)) (k : α) (v : β) (p : α × β) (h : p ∈ upsertBy m k v) :
    p = (k, v) ∨ p ∈ m := by
  induction m with
  | nil => simpa [upsertBy] using h
  | cons kv rest ih =>
    by_cases hk : kv.1 = k
    · simp only [upsertBy, if_pos hk] at h
      rcases List.mem_cons.mp h with h | h
      · exact Or.inl h
      · exact Or.inr (List.mem_cons_of_mem _ h)
    · simp only [upsertBy, if_neg hk] at h
      rcases List.mem_cons.mp h with h | h
      · exact Or.inr (h ▸ List.mem_cons_self _ _)
      · rcases ih h with h | h
        · exact Or.inl h
        · exact Or.inr (List.mem_cons_of_mem _ h)

theorem mem_eraseBy {α β : Type} [DecidableEq α]
    (m : List (α × β)) (k : α) (p : α × β) (h : p ∈ eraseBy m k) : p ∈ m :=
  List.mem_of_mem_filter h

theorem lookupBy_mem {α β : Type} [DecidableEq α]
    (m : List (α × β)) (k : α) (v : β) (h : lookupBy m k = some v) :
    (k, v) ∈ m := by
  induction m with
  | nil => simp [lookupBy] at h
  | cons kv rest ih =>
    obtain ⟨a, b⟩ := kv
    by_cases hk : a = k
    · simp only [lookupBy, if_pos hk] at h
      cases h
      subst hk
      exact List.mem_cons_self _ _
    · simp only [lookupBy, if_neg hk] at h
      exact List.mem_cons_of_mem _ (ih h)

theorem lookupBy_none_upsert {α β : Type} [DecidableEq α]
    (m : List (α × β)) (k : α) (v : β) (h : lookupBy m k = none) :
    upsertBy m k v = m ++ [(k, v)] := by
  induction m with
  | nil => simp [upsertBy]
  | cons kv rest ih =>
    by_cases hk : kv.1 = k
    · simp [lookupBy, hk] at h
    · simp only [lookupBy, if_neg hk] at h
      simp [upsertBy, hk, ih h]

theorem lookupBy_some_split {α β : Type} [DecidableEq α]
    (m : List (α × β)) (k : α) (v : β) (h : lookupBy m k = some v) :
    ∀ w, ∃ m1 m2, m = m1 ++ (k, v) :: m2 ∧ (∀ p ∈ m1, p.1 ≠ k) ∧
      upsertBy m k w = m1 ++ (k, w) :: m2 := by
  induction m with
  | nil => simp [lookupBy] at h
  | cons kv rest ih =>
    intro w
    by_cases hk : kv.1 = k
    · simp only [lookupBy, if_pos hk] at h
      cases h
      refine ⟨[], rest, ?_, by simp, ?_⟩
      · simp only [List.nil_append]
        congr 1
        calc kv = (kv.1, kv.2) := rfl
          _ = (k, kv.2) := by rw [hk]
      · simp [upsertBy, hk]
    · simp only [lookupBy, if_neg hk] at h
      obtain ⟨m1, m2, hsplit, hne, hup⟩ := ih h w
      exact ⟨kv :: m1, m2, by simp [hsplit], by
        intro p hp
        rcases List.mem_cons.mp hp with hp | hp
        · exact hp ▸ hk
        · exact hne p hp, by simp [upsertBy, hk, hup]⟩

end Analyze

namespace Analyze

/-! ### `add_event` lemmas -/

theorem add_event_ok_events (c c' : Connection) (e : ConnectionEvent)
    (h : c.add_event e = .ok c') : c'.events = c.events ++ [e] := by
  unfold Connection.add_event at h
  split at h
  · cases h
    rename_i hl
    have : c.events = [] := by
      cases hev : c.events with
      | nil => rfl
      | cons a t => rw [hev] at hl; simp at hl
    simp [this]
  · split at h
    · cases h
    · split at h
      · cases h
      · cases h
        rfl

theorem add_event_ok_of_match (c : Connection) (e lastEv : ConnectionEvent)
    (hl : c.events.getLast? = some lastEv)
    (h1 : lastEv.ip = e.ip) (h2 : lastEv.fd = e.fd) :
    c.add_event e = .ok ⟨c.events ++ [e]⟩ := by
  unfold Connection.add_event
  rw [hl]
  simp [h1, h2]

/-! ### `processEvent` characterizations -/

theorem processEvent_unknown (st : CorrState) (e : ConnectionEvent)
    (he : e.type = ConnectionType.unknown) : processEvent st e = .ok st := by
  simp only [processEvent, he]

theorem processEvent_close_char (st : CorrState) (e : ConnectionEvent)
    (he : e.type = ConnectionType.close) :
    processEvent st e =
      (match lookupBy st.open_connections e.conn with
       | none => .error PyErr.keyError
       | some c =>
         match c.add_event e with
         | .error err => .error err
         | .ok c2 => .ok ⟨st.closed_connections ++ [c2],
                          eraseBy st.open_connections e.conn⟩) := by
  simp only [processEvent, he]

theorem processEvent_accept_char (st : CorrState) (e : ConnectionEvent)
    (he : e.type = ConnectionType.accept) :
    processEvent st e =
      (match lookupBy st.open_connections e.conn with
       | some conn =>
         match conn.add_event e with
         | .error err => .error err
         | .ok conn2 => .ok ⟨st.closed_connections,
                             upsertBy st.open_connections e.conn conn2⟩
       | none => .ok ⟨st.closed_connections,
                      upsertBy st.open_connections e.conn ⟨[e]⟩⟩) := by
  simp only [processEvent, he]

end Analyze

namespace Analyze

/-! ### `processEvents` composition and effects -/

theorem processEvents_append (a b : List ConnectionEvent) (st : CorrState) :
    processEvents (a ++ b) st =
      (match processEvents a st with
       | .error err => .error err
       | .ok st1 => processEvents b st1) := by
  induction a generalizing st with
  | nil => simp [processEvents]
  | cons e rest ih =>
    simp only [List.cons_append, processEvents]
    cases processEvent st e with
    | error err => rfl
    | ok st2 => exact ih st2

theorem processEvent_accept_opens (st st' : CorrState) (e : ConnectionEvent)
    (he : e.type = ConnectionType.accept)
    (h : processEvent st e = .ok st') :
    ∃ c, lookupBy st'.open_connections e.conn = some c ∧
      c.events.getLast? = some e ∧
      st'.closed_connections = st.closed_connections ∧
      (∀ k, k ≠ e.conn → lookupBy st'.open_connections k =
        lookupBy st.open_connections k) ∧
      (lookupBy st.open_connections e.conn = none → c = ⟨[e]⟩) := by
  rw [processEvent_accept_char st e he] at h
  split at h
  · rename_i conn heq
    split at h
    · cases h
    · rename_i conn2 ha
      cases h
      have hev := add_event_ok_events conn conn2 e ha
      refine ⟨conn2, lookupBy_upsert_self .., ?_, rfl,
        fun k hk => lookupBy_upsert_ne _ _ _ _ hk, ?_⟩
      · rw [hev]
        exact List.getLast?_concat _
      · intro hnone
        rw [heq] at hnone
        cases hnone
  · rename_i heq
    cases h
    refine ⟨⟨[e]⟩, lookupBy_upsert_self .., by simp, rfl, ?_, fun _ => rfl⟩
    intro k hk
    exact lookupBy_upsert_ne _ _ _ _ hk

theorem processEvent_preserves_inv (st st' : CorrState) (e : ConnectionEvent)
    (hd : e.type = ConnectionType.close → ∃ q, e.duration = some q)
    (h : processEvent st e = .ok st') (hinv : StateInv st) : StateInv st' := by
  obtain ⟨hopen, hclosed⟩ := hinv
  cases hty : e.type with
  | unknown =>
    rw [processEvent_unknown st e hty] at h
    cases h
    exact ⟨hopen, hclosed⟩
  | accept =>
    rw [processEvent_accept_char st e hty] at h
    split at h
    · rename_i conn heq
      split at h
      · cases h
      · rename_i conn2 ha
        cases h
        have hev := add_event_ok_events conn conn2 e ha
        refine ⟨?_, hclosed⟩
        intro p hp
        rcases mem_upsertBy _ _ _ _ hp with hp | hp
        · subst hp
          refine ⟨e, ?_, rfl⟩
          simp only [hev]
          exact List.getLast?_concat _
        · exact hopen p hp
    · rename_i heq
      cases h
      refine ⟨?_, hclosed⟩
      intro p hp
      rcases mem_upsertBy _ _ _ _ hp with hp | hp
      · subst hp
        exact ⟨e, by simp, rfl⟩
      · exact hopen p hp
  | close =>
    rw [processEvent_close_char st e hty] at h
    split at h
    · cases h
    · rename_i conn heq
      split at h
      · cases h
      · rename_i conn2 ha
        cases h
        have hev := add_event_ok_events conn conn2 e ha
        constructor
        · intro p hp
          exact hopen p (mem_eraseBy _ _ _ hp)
        · intro c hc
          rcases List.mem_append.mp hc with hc | hc
          · exact hclosed c hc
          · have hc2 : c = conn2 := by simpa using hc
            subst hc2
            exact ⟨conn.events, e, hev, hty, hd hty⟩

theorem processEvents_preserves_inv (events : List ConnectionEvent)
    (st st' : CorrState)
    (hd : ∀ e ∈ events, e.type = ConnectionType.close → ∃ q, e.duration = some q)
    (h : processEvents events st = .ok st') (hinv : StateInv st) : StateInv st' := by
  induction events generalizing st with
  | nil =>
    cases h
    exact hinv
  | cons e rest ih =>
    simp only [processEvents] at h
    cases hp : processEvent st e with
    | error err => rw [hp] at h; cases h
    | ok st2 =>
      rw [hp] at h
      exact ih st2 (fun x hx => hd x (List.mem_cons_of_mem _ hx)) h
        (processEvent_preserves_inv st st2 e (hd e (List.mem_cons_self _ _)) hp hinv)

end Analyze

namespace Analyze

/-! ### Parser lemmas -/

theorem kindAndDuration_ok (f1 f5 : String) (lines : List String)
    (ty : ConnectionType) (dur : Option ℚ)
    (h : kindAndDuration f1 f5 = (lines, .ok (ty, dur))) :
    (dur ≠ none ↔ ty = ConnectionType.close) := by
  unfold kindAndDuration at h
  split at h
  · cases h
    simp
  · split at h
    · split at h
      · cases h
      · split at h
        · cases h
        · cases h
          simp
    · cases h
      simp

end Analyze

namespace Analyze

theorem from_journal_duration_iff (msg : String) (lines : List String)
    (ev : ConnectionEvent)
    (h : ConnectionEvent.from_journal msg = (lines, .ok (some ev))) :
    (ev.duration ≠ none ↔ ev.type = ConnectionType.close) := by
  unfold ConnectionEvent.from_journal at h
  repeat (split at h <;> try simp at h)
  obtain ⟨-, h2⟩ := h
  subst h2
  exact kindAndDuration_ok _ _ _ _ _ (by assumption)

theorem from_journal_close_duration (msg : String) (lines : List String)
    (ev : ConnectionEvent)
    (h : ConnectionEvent.from_journal msg = (lines, .ok (some ev)))
    (hty : ev.type = ConnectionType.close) : ∃ q, ev.duration = some q := by
  have hne := (from_journal_duration_iff msg lines ev h).mpr hty
  cases hd : ev.duration with
  | none => exact absurd hd hne
  | some q => exact ⟨q, rfl⟩

/-! ### `runLoop` lemmas -/

theorem runLoop_append_ok (a b : List String) (st : CorrState) (out : List String)
    (r : CorrState × List String) (h : runLoop (a ++ b) st out = .ok r) :
    ∃ st1 out1, runLoop a st out = .ok (st1, out1) ∧ runLoop b st1 out1 = .ok r := by
  induction a generalizing st out with
  | nil => exact ⟨st, out, rfl, h⟩
  | cons msg rest ih =>
    simp only [List.cons_append, runLoop] at h ⊢
    split at h
    · cases h
    · rename_i lines heq
      exact ih _ _ h
    · rename_i lines ev heq
      split at h
      · cases h
      · rename_i st2 hp
        exact ih _ _ h

theorem runLoop_ok_inv (msgs : List String) (st st' : CorrState)
    (out out' : List String)
    (h : runLoop msgs st out = .ok (st', out')) (hinv : StateInv st) :
    StateInv st' := by
  induction msgs generalizing st out with
  | nil => cases h; exact hinv
  | cons msg rest ih =>
    simp only [runLoop] at h
    split at h
    · cases h
    · exact ih _ _ h hinv
    · rename_i lines ev heq
      split at h
      · cases h
      · rename_i st2 hp
        refine ih _ _ h (processEvent_preserves_inv st st2 ev ?_ hp hinv)
        intro hty
        exact from_journal_close_duration msg lines ev heq hty

end Analyze

deriving instance DecidableEq for Except

namespace Analyze

/-! ### Sort lemmas: `sortByLen` is an ascending stable sort -/

theorem mem_insLen (g x : List Connection) (s : List (List Connection)) :
    x ∈ insLen g s ↔ x = g ∨ x ∈ s := by
  induction s with
  | nil => simp [insLen]
  | cons h t ih =>
    by_cases hc : h.length < g.length
    · simp only [insLen, if_pos hc, List.mem_cons, ih]
      tauto
    · simp only [insLen, if_neg hc, List.mem_cons]

theorem pairwise_insLen (g : List Connection) (s : List (List Connection))
    (hs : s.Pairwise (fun a b => a.length ≤ b.length)) :
    (insLen g s).Pairwise (fun a b => a.length ≤ b.length) := by
  induction s with
  | nil => simp [insLen]
  | cons h t ih =>
    rcases List.pairwise_cons.mp hs with ⟨hh, ht⟩
    by_cases hc : h.length < g.length
    · simp only [insLen, if_pos hc]
      refine List.pairwise_cons.mpr ⟨?_, ih ht⟩
      intro y hy
      rcases (mem_insLen ..).mp hy with rfl | hy
      · exact Nat.le_of_lt hc
      · exact hh y hy
    · simp only [insLen, if_neg hc]
      refine List.pairwise_cons.mpr ⟨?_, hs⟩
      intro y hy
      rcases List.mem_cons.mp hy with rfl | hy
      · exact Nat.le_of_not_lt hc
      · exact Nat.le_trans (Nat.le_of_not_lt hc) (hh y hy)

theorem pairwise_sortByLen (s : List (List Connection)) :
    (sortByLen s).Pairwise (fun a b => a.length ≤ b.length) := by
  induction s with
  | nil => simp [sortByLen]
  | cons h t ih => exact pairwise_insLen h _ ih

theorem mem_sortByLen (x : List Connection) (s : List (List Connection)) :
    x ∈ sortByLen s ↔ x ∈ s := by
  induction s with
  | nil => simp [sortByLen]
  | cons h t ih => simp [sortByLen, mem_insLen, ih]

theorem filter_insLen (g : List Connection) (s : List (List Connection)) (n : Nat) :
    (insLen g s).filter (fun x => x.length == n) =
      (if g.length = n then g :: s.filter (fun x => x.length == n)
       else s.filter (fun x => x.length == n)) := by
  induction s with
  | nil => by_cases hg : g.length = n <;> simp [insLen, hg]
  | cons h t ih =>
    by_cases hc : h.length < g.length
    · have h1 : insLen g (h :: t) = h :: insLen g t := by
        simp only [insLen, if_pos hc]
      rw [h1, List.filter_cons, ih]
      by_cases hg : g.length = n
      · have hh : ¬(h.length = n) := by omega
        simp [hg, hh, List.filter_cons]
      · simp [hg, List.filter_cons]
    · have h1 : insLen g (h :: t) = g :: h :: t := by
        simp only [insLen, if_neg hc]
      rw [h1, List.filter_cons, List.filter_cons]
      by_cases hg : g.length = n
      · simp [hg, List.filter_cons]
      · simp [hg, List.filter_cons]

theorem filter_sortByLen (s : List (List Connection)) (n : Nat) :
    (sortByLen s).filter (fun x => x.length == n) =
      s.filter (fun x => x.length == n) := by
  induction s with
  | nil => rfl
  | cons h t ih =>
    by_cases hg : h.length = n
    · simp [sortByLen, filter_insLen, hg, List.filter_cons, ih]
    · simp [sortByLen, filter_insLen, hg, List.filter_cons, ih]

end Analyze

namespace Analyze

/-! ### Aggregation lemmas -/

theorem lookupBy_none_keys {α β : Type} [DecidableEq α]
    (m : List (α × β)) (k : α) (h : lookupBy m k = none) :
    ∀ p ∈ m, p.1 ≠ k := by
  induction m with
  | nil => intro p hp; cases hp
  | cons kv rest ih =>
    intro p hp
    by_cases hk : kv.1 = k
    · simp [lookupBy, hk] at h
    · simp only [lookupBy, if_neg hk] at h
      rcases List.mem_cons.mp hp with hp | hp
      · exact hp ▸ hk
      · exact ih h p hp

theorem groupByIp_props (closed : List Connection)
    (m0 m : List (IpAddr × List Connection))
    (h : groupByIp closed m0 = .ok m)
    (hkeys : (m0.map Prod.fst).Nodup)
    (hgrp : ∀ p ∈ m0, ∀ c ∈ p.2, c.get_ip = Except.ok p.1)
    (hne : ∀ p ∈ m0, p.2 ≠ []) :
    (m.map Prod.fst).Nodup ∧
    (∀ p ∈ m, ∀ c ∈ p.2, c.get_ip = Except.ok p.1) ∧
    (∀ p ∈ m, p.2 ≠ []) ∧
    ((m0.map Prod.snd).flatten ++ closed).Perm (m.map Prod.snd).flatten := by
  induction closed generalizing m0 with
  | nil =>
    cases h
    exact ⟨hkeys, hgrp, hne, by simp⟩
  | cons conn rest ih =>
    simp only [groupByIp] at h
    split at h
    · cases h
    · rename_i ip hip
      split at h
      · rename_i conns hlk
        obtain ⟨m1l, m1r, hsplit, hnel, hup⟩ :=
          lookupBy_some_split m0 ip conns hlk (conns ++ [conn])
        have hmem0 : (ip, conns) ∈ m0 := lookupBy_mem m0 ip conns hlk
        rw [hup] at h
        have hkeys1 : ((m1l ++ (ip, conns ++ [conn]) :: m1r).map Prod.fst).Nodup := by
          have : (m1l ++ (ip, conns ++ [conn]) :: m1r).map Prod.fst =
              m0.map Prod.fst := by
            rw [hsplit]
            simp
          rw [this]
          exact hkeys
        have hgrp1 : ∀ p ∈ m1l ++ (ip, conns ++ [conn]) :: m1r,
            ∀ c ∈ p.2, c.get_ip = Except.ok p.1 := by
          intro p hp c hc
          have hp2 : p = (ip, conns ++ [conn]) ∨ p ∈ m0 := by
            rw [hsplit]
            rcases List.mem_append.mp hp with hp | hp
            · exact Or.inr (List.mem_append.mpr (Or.inl hp))
            · rcases List.mem_cons.mp hp with hp | hp
              · exact Or.inl hp
              · exact Or.inr (List.mem_append.mpr (Or.inr (List.mem_cons_of_mem _ hp)))
          rcases hp2 with rfl | hp2
          · rcases List.mem_append.mp hc with hc | hc
            · exact hgrp _ hmem0 c hc
            · rw [List.mem_singleton.mp hc]
              exact hip
          · exact hgrp p hp2 c hc
        have hne1 : ∀ p ∈ m1l ++ (ip, conns ++ [conn]) :: m1r, p.2 ≠ [] := by
          intro p hp
          have hp2 : p = (ip, conns ++ [conn]) ∨ p ∈ m0 := by
            rw [hsplit]
            rcases List.mem_append.mp hp with hp | hp
            · exact Or.inr (List.mem_append.mpr (Or.inl hp))
            · rcases List.mem_cons.mp hp with hp | hp
              · exact Or.inl hp
              · exact Or.inr (List.mem_append.mpr (Or.inr (List.mem_cons_of_mem _ hp)))
          rcases hp2 with rfl | hp2
          · simp
          · exact hne p hp2
        obtain ⟨hk2, hg2, hn2, hperm⟩ := ih _ h hkeys1 hgrp1 hne1
        refine ⟨hk2, hg2, hn2, ?_⟩
        refine List.Perm.trans ?_ hperm
        have hj0 : (m0.map Prod.snd).flatten =
            ((m1l.map Prod.snd).flatten ++ (conns ++ (m1r.map Prod.snd).flatten)) := by
          rw [hsplit]
          simp
        have hj1 : ((m1l ++ (ip, conns ++ [conn]) :: m1r).map Prod.snd).flatten =
            ((m1l.map Prod.snd).flatten ++ ((conns ++ [conn]) ++ (m1r.map Prod.snd).flatten)) := by
          simp
        rw [hj0, hj1]
        simp only [List.append_assoc, List.cons_append, List.nil_append]
        refine List.Perm.append_left _ ?_
        refine List.Perm.append_left _ ?_
        exact List.perm_middle
      · rename_i hlk
        have hnotin := lookupBy_none_keys m0 ip hlk
        have hkeys1 : ((m0 ++ [(ip, [conn])]).map Prod.fst).Nodup := by
          simp only [List.map_append, List.map_cons, List.map_nil]
          rw [List.nodup_append]
          refine ⟨hkeys, List.nodup_singleton _, ?_⟩
          intro a ha hb
          simp at hb
          subst hb
          rcases List.mem_map.mp ha with ⟨p, hp, hpa⟩
          exact hnotin p hp hpa
        have hgrp1 : ∀ p ∈ m0 ++ [(ip, [conn])], ∀ c ∈ p.2,
            c.get_ip = Except.ok p.1 := by
          intro p hp c hc
          rcases List.mem_append.mp hp with hp | hp
          · exact hgrp p hp c hc
          · rw [List.mem_singleton.mp hp] at hc ⊢
            rw [List.mem_singleton.mp hc]
            exact hip
        have hne1 : ∀ p ∈ m0 ++ [(ip, [conn])], p.2 ≠ [] := by
          intro p hp
          rcases List.mem_append.mp hp with hp | hp
          · exact hne p hp
          · rw [List.mem_singleton.mp hp]
            simp
        obtain ⟨hk2, hg2, hn2, hperm⟩ := ih _ h hkeys1 hgrp1 hne1
        refine ⟨hk2, hg2, hn2, ?_⟩
        refine List.Perm.trans ?_ hperm
        simp

theorem sumDurations_ok (conns : List Connection) (acc : ℚ)
    (hd : ∀ c ∈ conns, ∃ q, c.get_duration = Except.ok (some q)) :
    ∃ ds : List ℚ, conns.map Connection.get_duration =
        ds.map (fun d => Except.ok (some d)) ∧
      sumDurations conns acc = .ok (acc + ds.sum) := by
  induction conns generalizing acc with
  | nil => exact ⟨[], rfl, by simp [sumDurations]⟩
  | cons c rest ih =>
    obtain ⟨q, hq⟩ := hd c (List.mem_cons_self _ _)
    obtain ⟨ds, hmap, hsum⟩ := ih (acc + q) (fun x hx => hd x (List.mem_cons_of_mem _ hx))
    refine ⟨q :: ds, ?_, ?_⟩
    · simp [hmap, hq]
    · simp only [sumDurations, hq, hsum, List.sum_cons]
      congr 1
      ring

theorem renderGroup_ok (conns : List Connection) (c0 : Connection)
    (ip : IpAddr) (d : ℚ)
    (hh : conns.head? = some c0) (hip : c0.get_ip = .ok ip)
    (hsum : sumDurations conns 0 = .ok d) :
    renderGroup conns = .ok (ipToString ip ++ ": " ++ toString conns.length ++
      " connections, spent " ++ human_readable_seconds (pyIntOfFloat d)) := by
  simp only [renderGroup, hh, hip, hsum]

end Analyze

namespace Analyze

attribute [local semireducible] Rat.add Rat.mul Rat.inv Rat.sub

/-! ## Claim theorems -/

/-- C1 (code bug): a `CLOSE` line whose `(address, descriptor)` key has no
open connection parses into a well-formed Close event, but processing it
raises an uncaught `KeyError` (a fatal crash) instead of printing the
unmatched-close diagnostic and continuing: `main` subscripts
`open_connections[event.conn()]` (line 217) where the dead
`print("Closing leftover connection ...")` branch shows `.get` was
intended. -/
theorem C1_unmatched_close_keyerror :
    ConnectionEvent.from_journal msgClose = ([], .ok (some evCloParsed)) ∧
    mainRun [msgClose] = .error PyErr.keyError ∧
    processEvents [evCloParsed] initState = .error PyErr.keyError := by
  refine ⟨by decide, by decide, by decide⟩

/-- C4 counterexample: 3725 seconds is 1 hour, 2 minutes and 5 seconds,
so `human_readable_seconds 3725` is `"1 hour(s), 2 minute(s), 5
second(s)"`, not the `"1 hour(s), 0 minute(s), 5 second(s)"` stated in
the claim. -/
theorem C4_counterexample :
    human_readable_seconds 3725 = "1 hour(s), 2 minute(s), 5 second(s)" ∧
    "1 hour(s), 2 minute(s), 5 second(s)" ≠ "1 hour(s), 0 minute(s), 5 second(s)" := by
  refine ⟨by decide, by decide⟩

/-- C4 (amended): the renderer scales with thresholds at 60 and 3600
seconds — plain seconds below 60, minutes plus seconds below 3600, hours
plus minutes plus seconds otherwise — and the scenario values render as
`125 ↦ "2 minute(s), 5 second(s)"` and
`3725 ↦ "1 hour(s), 2 minute(s), 5 second(s)"`. -/
theorem C4_amended_thresholds :
    human_readable_seconds 125 = "2 minute(s), 5 second(s)" ∧
    human_readable_seconds 3725 = "1 hour(s), 2 minute(s), 5 second(s)" ∧
    (∀ s : Int, s < 60 → human_readable_seconds s = toString s ++ " second(s)") ∧
    (∀ s : Int, 60 ≤ s → s < 3600 → human_readable_seconds s =
      toString (s.fdiv 60) ++ " minute(s), " ++
      toString (s.fmod 60) ++ " second(s)") ∧
    (∀ s : Int, 3600 ≤ s → human_readable_seconds s =
      toString (s.fdiv 3600) ++ " hour(s), " ++
      toString ((s.fmod 3600).fdiv 60) ++ " minute(s), " ++
      toString ((s.fmod 3600).fmod 60) ++ " second(s)") := by
  refine ⟨by decide, by decide, ?_, ?_, ?_⟩
  · intro s hs
    simp [human_readable_seconds, hs]
  · intro s hs1 hs2
    have h1 : ¬(s < 60) := by omega
    simp [human_readable_seconds, h1, hs2]
  · intro s hs
    have h1 : ¬(s < 60) := by omega
    have h2 : ¬(s < 3600) := by omega
    simp [human_readable_seconds, h1, h2]

/-- C4 witness: the three threshold cases of `C4_amended_thresholds`
evaluated at 30, 125 and 3725 seconds. -/
theorem C4_amended_thresholds_witness :
    human_readable_seconds 30 = toString (30 : Int) ++ " second(s)" ∧
    human_readable_seconds 125 = toString ((125 : Int).fdiv 60) ++ " minute(s), " ++
      toString ((125 : Int).fmod 60) ++ " second(s)" ∧
    human_readable_seconds 3725 = toString ((3725 : Int).fdiv 3600) ++ " hour(s), " ++
      toString (((3725 : Int).fmod 3600).fdiv 60) ++ " minute(s), " ++
      toString (((3725 : Int).fmod 3600).fmod 60) ++ " second(s)" :=
  ⟨C4_amended_thresholds.2.2.1 30 (by decide),
   C4_amended_thresholds.2.2.2.1 125 (by decide) (by decide),
   C4_amended_thresholds.2.2.2.2 3725 (by decide)⟩

/-- C7: every event the parser returns has a duration exactly when its
kind is Close — Accept and Unknown events always carry `none`. -/
theorem C7_duration_iff_close (msg : String) (lines : List String)
    (ev : ConnectionEvent)
    (h : ConnectionEvent.from_journal msg = (lines, .ok (some ev))) :
    (ev.duration ≠ none ↔ ev.type = ConnectionType.close) :=
  from_journal_duration_iff msg lines ev h

/-- C7 witness: the scenario close line parses to an event with a
duration, and the iff instantiates at it. -/
theorem C7_duration_iff_close_witness :
    (evCloParsed.duration ≠ none ↔ evCloParsed.type = ConnectionType.close) :=
  C7_duration_iff_close msgClose [] evCloParsed (by decide)

end Analyze

namespace Analyze

attribute [local semireducible] Rat.add Rat.mul Rat.inv Rat.sub

/-- C6: on a `Connection` satisfying the all-events-share-the-first-event
invariant, `add_event` raises a fatal `ValueError` exactly on an address
or descriptor mismatch with the first event, and a matching append
succeeds and preserves the invariant.  (The code compares against the
LAST event, which under the invariant carries the first event's address
and descriptor.) -/
theorem C6_add_event_invariant (c : Connection) (f e : ConnectionEvent)
    (hne : c.events.head? = some f)
    (hinv : c.sharesFirst) :
    ((e.ip ≠ f.ip ∨ e.fd ≠ f.fd) → c.add_event e = .error PyErr.valueError) ∧
    (e.ip = f.ip → e.fd = f.fd →
      c.add_event e = .ok ⟨c.events ++ [e]⟩ ∧
      Connection.sharesFirst ⟨c.events ++ [e]⟩) := by
  obtain ⟨t, hev⟩ : ∃ t, c.events = f :: t := by
    cases hl : c.events with
    | nil => rw [hl] at hne; cases hne
    | cons a t =>
      rw [hl] at hne
      simp only [List.head?_cons, Option.some.injEq] at hne
      exact ⟨t, by rw [hne]⟩
  have hlast : ∃ l, c.events.getLast? = some l ∧ l.ip = f.ip ∧ l.fd = f.fd := by
    cases hl : c.events.getLast? with
    | none =>
      rw [List.getLast?_eq_none_iff] at hl
      rw [hev] at hl
      cases hl
    | some l =>
      have hlm : l ∈ c.events := List.mem_of_getLast?_eq_some hl
      obtain ⟨h1, h2⟩ := hinv l hlm f (by rw [hev]; rfl)
      exact ⟨l, rfl, h1, h2⟩
  obtain ⟨l, hl, hip, hfd⟩ := hlast
  constructor
  · intro hmis
    unfold Connection.add_event
    simp only [hl]
    rcases hmis with hmis | hmis
    · rw [if_pos (by rw [hip]; exact fun hc => hmis hc.symm)]
    · by_cases hi : l.ip = e.ip
      · rw [if_neg (fun hc => hc hi),
          if_pos (by rw [hfd]; exact fun hc => hmis hc.symm)]
      · rw [if_pos hi]
  · intro hi hf
    refine ⟨add_event_ok_of_match c e l hl (by rw [hip, hi]) (by rw [hfd, hf]), ?_⟩
    intro x hx g hg
    have hg2 : g = f := by
      rw [hev] at hg
      simp only [List.cons_append, List.head?_cons, Option.some.injEq] at hg
      exact hg.symm
    rw [hg2]
    rcases List.mem_append.mp hx with hx | hx
    · exact hinv x hx f (by rw [hev]; rfl)
    · rw [List.mem_singleton.mp hx]
      exact ⟨hi, hf⟩

/-- C6 witness: on the singleton connection holding the scenario Accept
event, appending the matching Close succeeds with the appended event
list, and appending an event with a different address and descriptor
raises `ValueError`. -/
theorem C6_add_event_invariant_witness :
    Connection.add_event ⟨[evAccA]⟩ evCloB = .error PyErr.valueError ∧
    Connection.add_event ⟨[evAccA]⟩ evCloA = .ok ⟨[evAccA] ++ [evCloA]⟩ := by
  have hinv : Connection.sharesFirst ⟨[evAccA]⟩ := by
    intro x hx g hg
    simp only [List.mem_singleton] at hx
    simp only [List.head?_cons, Option.some.injEq] at hg
    subst hx
    rw [← hg]
    exact ⟨rfl, rfl⟩
  exact ⟨(C6_add_event_invariant ⟨[evAccA]⟩ evAccA evCloB rfl hinv).1
      (Or.inl (by decide)),
    ((C6_add_event_invariant ⟨[evAccA]⟩ evAccA evCloA rfl hinv).2
      (by decide) (by decide)).1⟩

/-- C10: the report line truncates the group's summed duration toward
zero (`int(duration)`) before unit scaling, so fractional seconds are
dropped: in general the printed line uses
`human_readable_seconds (pyIntOfFloat total)`, and end to end a closed
connection with duration `5.9` is reported as `5 second(s)`. -/
theorem C10_truncated_duration :
    (∀ (conns : List Connection) (c0 : Connection) (ip : IpAddr) (d : ℚ),
      conns.head? = some c0 → c0.get_ip = .ok ip →
      sumDurations conns 0 = .ok d →
      renderGroup conns = .ok (ipToString ip ++ ": " ++ toString conns.length ++
        " connections, spent " ++ human_readable_seconds (pyIntOfFloat d))) ∧
    mainRun [msgAccept, msgClose59] =
      .ok ["", "Closed connections: 1",
           "1.2.3.4: 1 connections, spent 5 second(s)"] := by
  constructor
  · intro conns c0 ip d hh hip hsum
    exact renderGroup_ok conns c0 ip d hh hip hsum
  · decide

/-- C10 witness: the general truncation statement instantiated at the
concrete one-connection group with total duration 5.9. -/
theorem C10_truncated_duration_witness :
    renderGroup [cn59] = .ok (ipToString ipA ++ ": " ++ toString ([cn59].length) ++
      " connections, spent " ++ human_readable_seconds (pyIntOfFloat (59 / 10))) :=
  C10_truncated_duration.1 [cn59] cn59 ipA (59 / 10) (by decide) (by decide) (by decide)

end Analyze

namespace Analyze

attribute [local semireducible] Rat.add Rat.mul Rat.inv Rat.sub

/-- C3 counterexample: two closed connections from distinct addresses
(encounter order `connA` then `connB`, each group of count 1).  The claim
says equal-count groups keep encounter order (`[[connA], [connB]]`), but
`reversed(sorted(..., key=len))` reverses the tie order and the code
produces `[[connB], [connA]]`. -/
theorem C3_counterexample :
    orderedGroups [connA, connB] = .ok [[connB], [connA]] ∧
    ([[connB], [connA]] : List (List Connection)) ≠ [[connA], [connB]] := by
  refine ⟨by decide, by decide⟩

/-- C3 (amended): the aggregated groups are ordered monotonically
non-increasing in count, and groups of equal count appear in the REVERSE
of the encounter order of their first members (Python's `sorted` is a
stable ascending sort and `reversed` flips it, reversing tie order). -/
theorem C3_amended_ordering (closed : List Connection)
    (m : List (IpAddr × List Connection)) (gs : List (List Connection))
    (hm : groupByIp closed [] = .ok m)
    (hgs : orderedGroups closed = .ok gs) :
    gs.Pairwise (fun a b => b.length ≤ a.length) ∧
    ∀ n, gs.filter (fun g => g.length == n) =
      ((m.map Prod.snd).filter (fun g => g.length == n)).reverse := by
  have hgs2 : gs = (sortByLen (m.map Prod.snd)).reverse := by
    simp only [orderedGroups, hm] at hgs
    cases hgs
    rfl
  subst hgs2
  constructor
  · rw [List.pairwise_reverse]
    exact pairwise_sortByLen _
  · intro n
    rw [List.filter_reverse, filter_sortByLen]

/-- C3 witness: the amended ordering instantiated on the two-group
counterexample input. -/
theorem C3_amended_ordering_witness :
    (([[connB], [connA]] : List (List Connection)).Pairwise
      (fun a b => b.length ≤ a.length)) ∧
    ([[connB], [connA]] : List (List Connection)).filter (fun g => g.length == 1) =
      (([(ipA, [connA]), (ipB, [connB])].map Prod.snd).filter
        (fun g => g.length == 1)).reverse :=
  ⟨(C3_amended_ordering [connA, connB] [(ipA, [connA]), (ipB, [connB])]
      [[connB], [connA]] (by decide) (by decide)).1,
   (C3_amended_ordering [connA, connB] [(ipA, [connA]), (ipB, [connB])]
      [[connB], [connA]] (by decide) (by decide)).2 1⟩

end Analyze

namespace Analyze

theorem processEvents_singleton (e : ConnectionEvent) (st : CorrState) :
    processEvents [e] st = processEvent st e := by
  simp only [processEvents]
  cases processEvent st e <;> rfl

theorem processEvents_append_ok (a b : List ConnectionEvent)
    (st st' : CorrState) (h : processEvents (a ++ b) st = .ok st') :
    ∃ s1, processEvents a st = .ok s1 ∧ processEvents b s1 = .ok st' := by
  rw [processEvents_append] at h
  cases ha : processEvents a st with
  | error err => rw [ha] at h; cases h
  | ok s1 =>
    rw [ha] at h
    exact ⟨s1, rfl, h⟩

theorem processEvents_key_preserved (mid : List ConnectionEvent) (k : ConnKey)
    (s s1 : CorrState) (c : Connection)
    (h : processEvents mid s = .ok s1)
    (hc : lookupBy s.open_connections k = some c)
    (hlast : ∃ l, c.events.getLast? = some l ∧ l.conn = k)
    (hmid : ∀ e ∈ mid, ¬(e.type = ConnectionType.close ∧ e.conn = k)) :
    ∃ c1, lookupBy s1.open_connections k = some c1 ∧
      (∃ l, c1.events.getLast? = some l ∧ l.conn = k) := by
  induction mid generalizing s c with
  | nil =>
    cases h
    exact ⟨c, hc, hlast⟩
  | cons e rest ih =>
    simp only [processEvents] at h
    cases hp : processEvent s e with
    | error err => rw [hp] at h; cases h
    | ok s2 =>
      rw [hp] at h
      have hmid2 : ∀ x ∈ rest, ¬(x.type = ConnectionType.close ∧ x.conn = k) :=
        fun x hx => hmid x (List.mem_cons_of_mem _ hx)
      cases hty : e.type with
      | unknown =>
        rw [processEvent_unknown s e hty] at hp
        cases hp
        exact ih _ _ h hc hlast hmid2
      | accept =>
        obtain ⟨c2, hl2, hlast2, -, hothers, -⟩ :=
          processEvent_accept_opens s s2 e hty hp
        by_cases hk : e.conn = k
        · exact ih _ _ h (hk ▸ hl2) ⟨e, hlast2, hk⟩ hmid2
        · have hpk : lookupBy s2.open_connections k =
              lookupBy s.open_connections k :=
            hothers k (fun hkk => hk hkk.symm)
          exact ih _ _ h (hpk ▸ hc) hlast hmid2
      | close =>
        have hk : e.conn ≠ k := by
          intro hkk
          exact hmid e (List.mem_cons_self _ _) ⟨hty, hkk⟩
        rw [processEvent_close_char s e hty] at hp
        split at hp
        · cases hp
        · rename_i conn heq
          split at hp
          · cases hp
          · rename_i conn2 ha
            cases hp
            have hpk : lookupBy (eraseBy s.open_connections e.conn) k = some c := by
              rw [lookupBy_erase_ne _ _ _ (Ne.symm hk)]
              exact hc
            exact ih _ _ h hpk hlast hmid2

/-- C2: an Accept followed later by a Close with the same
`(address, descriptor)` key and no intervening Close for that key yields
exactly one new closed Connection whose duration is the Close event's
duration; the key is removed from the open mapping at the Close, and a
subsequent Accept with the same key starts a fresh single-event
Connection. -/
theorem C2_accept_close_pair (pre mid : List ConnectionEvent)
    (acc cl : ConnectionEvent) (s1 : CorrState)
    (hacc : acc.type = ConnectionType.accept)
    (hcl : cl.type = ConnectionType.close)
    (hkey : cl.conn = acc.conn)
    (hmid : ∀ e ∈ mid, ¬(e.type = ConnectionType.close ∧ e.conn = acc.conn))
    (hrun : processEvents (pre ++ acc :: mid) initState = .ok s1) :
    ∃ c : Connection,
      lookupBy s1.open_connections acc.conn = some c ∧
      processEvents (pre ++ acc :: mid ++ [cl]) initState =
        .ok ⟨s1.closed_connections ++ [⟨c.events ++ [cl]⟩],
             eraseBy s1.open_connections acc.conn⟩ ∧
      Connection.get_duration ⟨c.events ++ [cl]⟩ = .ok cl.duration ∧
      lookupBy (eraseBy s1.open_connections acc.conn) acc.conn = none ∧
      (∀ acc2 : ConnectionEvent, acc2.type = ConnectionType.accept →
        acc2.conn = acc.conn →
        ∃ s3, processEvents (pre ++ acc :: mid ++ [cl, acc2]) initState = .ok s3 ∧
          lookupBy s3.open_connections acc.conn = some ⟨[acc2]⟩ ∧
          s3.closed_connections = s1.closed_connections ++ [⟨c.events ++ [cl]⟩]) := by
  have hshape : pre ++ acc :: mid = (pre ++ [acc]) ++ mid := by simp
  rw [hshape] at hrun
  obtain ⟨sa, hpreacc, hmidrun⟩ := processEvents_append_ok _ _ _ _ hrun
  obtain ⟨s0, hpre0, haccstep⟩ := processEvents_append_ok _ _ _ _ hpreacc
  rw [processEvents_singleton] at haccstep
  obtain ⟨ca, hca, hlast_a, -, -, -⟩ :=
    processEvent_accept_opens s0 sa acc hacc haccstep
  obtain ⟨c, hc, l, hl, hlk⟩ :=
    processEvents_key_preserved mid acc.conn sa s1 ca hmidrun hca
      ⟨acc, hlast_a, rfl⟩ hmid
  have hlip : l.ip = cl.ip ∧ l.fd = cl.fd := by
    have hcc : (l.ip, l.fd) = (cl.ip, cl.fd) := by
      show l.conn = cl.conn
      rw [hlk, hkey]
    exact ⟨congrArg Prod.fst hcc, congrArg Prod.snd hcc⟩
  have hadd : c.add_event cl = .ok ⟨c.events ++ [cl]⟩ :=
    add_event_ok_of_match c cl l hl hlip.1 hlip.2
  have hclose : processEvent s1 cl =
      .ok ⟨s1.closed_connections ++ [⟨c.events ++ [cl]⟩],
           eraseBy s1.open_connections acc.conn⟩ := by
    rw [processEvent_close_char s1 cl hcl]
    simp only [hkey, hc, hadd]
  refine ⟨c, hc, ?_, ?_, lookupBy_erase_self _ _, ?_⟩
  · rw [show pre ++ acc :: mid ++ [cl] = ((pre ++ [acc]) ++ mid) ++ [cl] by simp]
    rw [processEvents_append]
    simp only [hrun, processEvents_singleton, hclose]
  · unfold Connection.get_duration
    rw [List.getLast?_concat]
  · intro acc2 hacc2 hconn2
    refine ⟨⟨s1.closed_connections ++ [⟨c.events ++ [cl]⟩],
      upsertBy (eraseBy s1.open_connections acc.conn) acc.conn ⟨[acc2]⟩⟩, ?_, ?_, rfl⟩
    · rw [show pre ++ acc :: mid ++ [cl, acc2] = ((pre ++ [acc]) ++ mid) ++ [cl, acc2]
        by simp]
      rw [processEvents_append]
      simp only [hrun, processEvents, hclose]
      rw [processEvent_accept_char _ acc2 hacc2]
      simp only [hconn2, lookupBy_erase_self]
    · exact lookupBy_upsert_self _ _ _

end Analyze

namespace Analyze

attribute [local semireducible] Rat.add Rat.mul Rat.inv Rat.sub

/-- C2 witness: the scenario Accept/Close pair on the empty prefix yields
the single closed connection `[evAccA, evCloA]` with the Close event's
duration, and the key leaves the open mapping. -/
theorem C2_accept_close_pair_witness :
    processEvents ([] ++ evAccA :: [] ++ [evCloA]) initState =
      .ok ⟨[⟨[evAccA] ++ [evCloA]⟩],
           eraseBy [((ipA, 5), Connection.mk [evAccA])] evAccA.conn⟩ ∧
    Connection.get_duration ⟨[evAccA] ++ [evCloA]⟩ = .ok evCloA.duration := by
  obtain ⟨c, hc, hproc, hdur, -, -⟩ :=
    C2_accept_close_pair [] [] evAccA evCloA ⟨[], [((ipA, 5), ⟨[evAccA]⟩)]⟩
      rfl rfl rfl (fun e he => absurd he (List.not_mem_nil e)) (by decide)
  have hlk : lookupBy [((ipA, 5), Connection.mk [evAccA])] evAccA.conn =
      some ⟨[evAccA]⟩ := by decide
  have hcc := hlk.symm.trans hc
  injection hcc with hcc
  subst hcc
  exact ⟨hproc, hdur⟩

theorem groupByIp_total (closed : List Connection)
    (m0 : List (IpAddr × List Connection))
    (hne : ∀ c ∈ closed, c.events ≠ []) :
    ∃ m, groupByIp closed m0 = .ok m := by
  induction closed generalizing m0 with
  | nil => exact ⟨m0, rfl⟩
  | cons conn rest ih =>
    obtain ⟨e, he⟩ : ∃ e, conn.events.head? = some e := by
      cases hev : conn.events with
      | nil => exact absurd hev (hne conn (List.mem_cons_self _ _))
      | cons a t => exact ⟨a, rfl⟩
    have hip : conn.get_ip = .ok e.ip := by
      unfold Connection.get_ip
      rw [he]
    have hne2 : ∀ c ∈ rest, c.events ≠ [] :=
      fun c hc => hne c (List.mem_cons_of_mem _ hc)
    simp only [groupByIp, hip]
    cases hl : lookupBy m0 e.ip with
    | some conns => exact ih _ hne2
    | none => exact ih _ hne2

/-- C8: when the event sequence ends with an Accept whose key never gets
a matching Close, that key remains in the open mapping after the run, its
line appears in the currently-open output section, and the connection sits
in no aggregated group. -/
theorem C8_unmatched_accept_stays_open (pre : List String) (mAcc : String)
    (lines out : List String) (acc : ConnectionEvent) (st : CorrState)
    (hparse : ConnectionEvent.from_journal mAcc = (lines, .ok (some acc)))
    (hacc : acc.type = ConnectionType.accept)
    (hrun : runLoop (pre ++ [mAcc]) initState [] = .ok (st, out)) :
    ∃ c, lookupBy st.open_connections acc.conn = some c ∧
      ("\tevent=" ++ reprConnKey acc.conn) ∈ openSectionLines st ∧
      ∃ gs, orderedGroups st.closed_connections = .ok gs ∧
        ∀ g ∈ gs, c ∉ g := by
  obtain ⟨st1, out1, hrun1, hrun2⟩ := runLoop_append_ok pre [mAcc] initState [] _ hrun
  have hinv0 : StateInv initState :=
    ⟨fun p hp => absurd hp (List.not_mem_nil p),
     fun c hc => absurd hc (List.not_mem_nil c)⟩
  have hinv1 : StateInv st1 := runLoop_ok_inv pre initState st1 [] out1 hrun1 hinv0
  simp only [runLoop, hparse] at hrun2
  split at hrun2
  · cases hrun2
  · rename_i st2 hp
    cases hrun2
    obtain ⟨c, hc, hlast, -, -, -⟩ := processEvent_accept_opens st1 st acc hacc hp
    have hinv : StateInv st :=
      processEvent_preserves_inv st1 st acc
        (by intro hty; rw [hacc] at hty; cases hty) hp hinv1
    obtain ⟨hopen, hclosed⟩ := hinv
    refine ⟨c, hc, ?_, ?_⟩
    · have hmem : (acc.conn, c) ∈ st.open_connections := lookupBy_mem _ _ _ hc
      unfold openSectionLines
      exact List.mem_append.mpr (Or.inr (List.mem_map.mpr ⟨(acc.conn, c), hmem, rfl⟩))
    · have hne : ∀ x ∈ st.closed_connections, x.events ≠ [] := by
        intro x hx
        obtain ⟨es, e, hev, -⟩ := hclosed x hx
        rw [hev]
        exact (List.append_ne_nil_of_right_ne_nil _ (by simp))
      obtain ⟨m, hm⟩ := groupByIp_total st.closed_connections [] hne
      obtain ⟨-, -, -, hperm⟩ := groupByIp_props st.closed_connections [] m hm
        (by simp) (by intro p hp; cases hp) (by intro p hp; cases hp)
      refine ⟨(sortByLen (m.map Prod.snd)).reverse, by simp only [orderedGroups, hm], ?_⟩
      intro g hg hcg
      have hgval : g ∈ m.map Prod.snd := by
        rw [List.mem_reverse] at hg
        exact (mem_sortByLen g _).mp hg
      have hcflat : c ∈ (m.map Prod.snd).flatten :=
        List.mem_flatten.mpr ⟨g, hgval, hcg⟩
      have hcclosed : c ∈ st.closed_connections := by
        have := hperm.mem_iff.mpr hcflat
        simpa using this
      obtain ⟨es, e, hev, hty, -⟩ := hclosed c hcclosed
      have : e = acc := by
        have h1 : c.events.getLast? = some e := by
          rw [hev]
          exact List.getLast?_concat _
        have := h1.symm.trans hlast
        injection this
      rw [this] at hty
      rw [hacc] at hty
      cases hty

end Analyze

namespace Analyze

attribute [local semireducible] Rat.add Rat.mul Rat.inv Rat.sub

/-- C8 witness: after running just the scenario Accept line, the open
section of the report contains the key's line. -/
theorem C8_unmatched_accept_stays_open_witness :
    ("\tevent=" ++ reprConnKey evAccA.conn) ∈
      openSectionLines ⟨[], [((ipA, 5), Connection.mk [evAccA])]⟩ := by
  obtain ⟨c, -, hline, -⟩ :=
    C8_unmatched_accept_stays_open [] msgAccept [] [] evAccA
      ⟨[], [((ipA, 5), ⟨[evAccA]⟩)]⟩ (by decide) rfl (by decide)
  exact hline

/-- C9: the grouping dict built by `main` partitions the closed
connections by `get_ip` (the flattened groups are a permutation of the
closed list, group keys are distinct, and every member's address is its
group's key), every member carries a duration, and each group's rendered
line shows `count = len(group)` and the truncated sum of the members'
durations. -/
theorem C9_duration_additive_partition (msgs : List String) (st : CorrState)
    (out : List String) (m : List (IpAddr × List Connection))
    (hrun : runLoop msgs initState [] = .ok (st, out))
    (hm : groupByIp st.closed_connections [] = .ok m) :
    st.closed_connections.Perm (m.map Prod.snd).flatten ∧
    (m.map Prod.fst).Nodup ∧
    (∀ p ∈ m, ∀ c ∈ p.2, c.get_ip = Except.ok p.1) ∧
    (∀ p ∈ m, ∃ ds : List ℚ,
      p.2.map Connection.get_duration = ds.map (fun d => Except.ok (some d)) ∧
      sumDurations p.2 0 = .ok ds.sum ∧
      renderGroup p.2 = .ok (ipToString p.1 ++ ": " ++ toString p.2.length ++
        " connections, spent " ++ human_readable_seconds (pyIntOfFloat ds.sum))) := by
  have hinv0 : StateInv initState :=
    ⟨fun p hp => absurd hp (List.not_mem_nil p),
     fun c hc => absurd hc (List.not_mem_nil c)⟩
  obtain ⟨-, hclosed⟩ := runLoop_ok_inv msgs initState st [] out hrun hinv0
  obtain ⟨hkeys, hgrp, hnemp, hperm⟩ := groupByIp_props st.closed_connections [] m hm
    (by simp) (by intro p hp; cases hp) (by intro p hp; cases hp)
  have hperm2 : st.closed_connections.Perm (m.map Prod.snd).flatten := by
    simpa using hperm
  refine ⟨hperm2, hkeys, hgrp, ?_⟩
  intro p hp
  have hdur : ∀ c ∈ p.2, ∃ q, c.get_duration = Except.ok (some q) := by
    intro c hc
    have hcc : c ∈ st.closed_connections := by
      refine hperm2.mem_iff.mpr ?_
      exact List.mem_flatten.mpr ⟨p.2, List.mem_map.mpr ⟨p, hp, rfl⟩, hc⟩
    obtain ⟨es, e, hev, -, q, hq⟩ := hclosed c hcc
    refine ⟨q, ?_⟩
    unfold Connection.get_duration
    rw [hev, List.getLast?_concat]
    simp only [hq]
  obtain ⟨ds, hmap, hsum⟩ := sumDurations_ok p.2 0 hdur
  rw [zero_add] at hsum
  obtain ⟨c0, t, hpt⟩ : ∃ c0 t, p.2 = c0 :: t := by
    cases hp2 : p.2 with
    | nil => exact absurd hp2 (hnemp p hp)
    | cons a t => exact ⟨a, t, rfl⟩
  have hh : p.2.head? = some c0 := by rw [hpt]; rfl
  have hc0 : c0 ∈ p.2 := by rw [hpt]; exact List.mem_cons_self _ _
  have hip := hgrp p hp c0 hc0
  exact ⟨ds, hmap, hsum, renderGroup_ok p.2 c0 p.1 ds.sum hh hip hsum⟩

/-- C9 witness: the partition facts instantiated on the scenario run
(one Accept/Close pair, one group). -/
theorem C9_duration_additive_partition_witness :
    ([(⟨[evAccA, evCloParsed]⟩ : Connection)] : List Connection).Perm
      (([(ipA, [(⟨[evAccA, evCloParsed]⟩ : Connection)])].map Prod.snd).flatten) ∧
    ([(ipA, [(⟨[evAccA, evCloParsed]⟩ : Connection)])].map Prod.fst).Nodup := by
  obtain ⟨h1, h2, -, -⟩ :=
    C9_duration_additive_partition [msgAccept, msgClose]
      ⟨[⟨[evAccA, evCloParsed]⟩], []⟩ []
      [(ipA, [⟨[evAccA, evCloParsed]⟩])] (by decide) (by decide)
  exact ⟨h1, h2⟩

end Analyze

namespace Analyze

theorem exists_six_fields (xs : List String) (h : 6 ≤ xs.length) :
    ∃ f0 f1 f2 f3 f4 f5 rest, xs = f0 :: f1 :: f2 :: f3 :: f4 :: f5 :: rest := by
  match xs with
  | a :: b :: c :: d :: e :: f :: r => exact ⟨a, b, c, d, e, f, r, rfl⟩
  | [] => simp at h
  | [a] => simp at h
  | [a, b] => simp at h
  | [a, b, c] => simp at h
  | [a, b, c, d] => simp at h
  | [a, b, c, d, e] => simp at h

theorem from_journal_skip (msg : String) (h : structuralSkip msg) :
    ConnectionEvent.from_journal msg = ([], Except.ok none) := by
  by_cases hlen : 6 ≤ (msgFields msg).length
  · obtain ⟨f0, f1, f2, f3, f4, f5, rest, hf⟩ := exists_six_fields _ hlen
    have hf2 : pySplit msg ' ' = f0 :: f1 :: f2 :: f3 :: f4 :: f5 :: rest := hf
    have hsw : ¬ (pyStartsWith f2 "host=" = true) := by
      rcases h with h | h
      · rw [hf] at h
        simp at h
        omega
      · rw [hf] at h
        simpa using h
    simp only [ConnectionEvent.from_journal, hf2, if_neg hsw]
  · have hshort : (msgFields msg).length < 6 := by omega
    rcases hm : msgFields msg with _ | ⟨a, _ | ⟨b, _ | ⟨c, _ | ⟨d, _ | ⟨e, _ | ⟨f, r⟩⟩⟩⟩⟩⟩ <;>
      first
      | (exfalso
         rw [hm] at hshort
         simp only [List.length_cons, List.length_nil] at hshort
         omega)
      | (simp only [ConnectionEvent.from_journal]
         rw [show pySplit msg ' ' = _ from hm])

theorem from_journal_not_skip (msg : String) (hns : ¬ structuralSkip msg) :
    (fieldFailure msg = true →
      ∃ lines e, ConnectionEvent.from_journal msg = (lines, Except.error e)) ∧
    (fieldFailure msg = false →
      ∃ lines ev, ConnectionEvent.from_journal msg = (lines, Except.ok (some ev))) := by
  have hlen : 6 ≤ (msgFields msg).length := by
    by_contra hcon
    exact hns (Or.inl (by omega))
  obtain ⟨f0, f1, f2, f3, f4, f5, rest, hf⟩ := exists_six_fields _ hlen
  have hf2 : pySplit msg ' ' = f0 :: f1 :: f2 :: f3 :: f4 :: f5 :: rest := hf
  have hsw : pyStartsWith f2 "host=" = true := by
    by_contra hcon
    refine hns (Or.inr ?_)
    rw [hf]
    simpa using hcon
  have hg0 : (msgFields msg).getD 0 "" = f0 := by rw [hf]; rfl
  have hg1 : (msgFields msg).getD 1 "" = f1 := by rw [hf]; rfl
  have hg2 : (msgFields msg).getD 2 "" = f2 := by rw [hf]; rfl
  have hg4 : (msgFields msg).getD 4 "" = f4 := by rw [hf]; rfl
  have hg5 : (msgFields msg).getD 5 "" = f5 := by rw [hf]; rfl
  simp only [ConnectionEvent.from_journal, hf2, fieldFailure, ipFailure, fdFailure,
    durFailure, tsFailure, eqPiece, hg0, hg1, hg2, hg4, hg5, hsw,
    eq_self_iff_true, if_true]
  rcases hq2 : pySplit f2 '=' with _ | ⟨u2, _ | ⟨v2, r2⟩⟩
  · exact ⟨fun _ => ⟨[], .indexError, by simp [index1]⟩, fun hff => by simp at hff⟩
  · exact ⟨fun _ => ⟨[], .indexError, by simp [index1]⟩, fun hff => by simp at hff⟩
  · simp only [index1]
    rcases hipv : pyIpAddress v2 with _ | ip
    · exact ⟨fun _ => ⟨[], .valueError, by simp⟩, fun hff => by simp at hff⟩
    · simp only [Option.isNone_some, Bool.false_or]
      rcases hq4 : pySplit f4 '=' with _ | ⟨u4, _ | ⟨v4, r4⟩⟩
      · exact ⟨fun _ => ⟨[], .indexError, by simp [index1]⟩, fun hff => by simp at hff⟩
      · exact ⟨fun _ => ⟨[], .indexError, by simp [index1]⟩, fun hff => by simp at hff⟩
      · simp only [index1]
        rcases hint : pyInt v4 with _ | fd
        · exact ⟨fun _ => ⟨[], .valueError, by simp⟩, fun hff => by simp at hff⟩
        · simp only [Option.isNone_some, Bool.false_or]
          by_cases hacc : f1 = "ACCEPT"
          · have hbeq : (f1 == "CLOSE") = false := by
              rw [hacc]
              decide
            simp only [kindAndDuration, hacc, eq_self_iff_true, if_true, hbeq,
              Bool.false_and, Bool.false_or]
            rcases hts : pyStrptime f0 with _ | t
            · exact ⟨fun _ => ⟨[], .valueError, by simp⟩, fun hff => by simp at hff⟩
            · exact ⟨fun hff => by simp at hff,
                fun _ => ⟨[], ⟨t, ConnectionType.accept, ip, fd, none⟩, by simp⟩⟩
          · by_cases hcl : f1 = "CLOSE"
            · have hbeq : (f1 == "CLOSE") = true := by
                rw [hcl]
                decide
              simp only [kindAndDuration, hacc, hcl, eq_self_iff_true, if_true,
                if_false, hbeq, Bool.true_and]
              rcases hq5 : pySplit f5 '=' with _ | ⟨u5, _ | ⟨v5, r5⟩⟩
              · exact ⟨fun _ => ⟨[], .indexError, by simp [index1]⟩,
                  fun hff => by simp [index1] at hff⟩
              · exact ⟨fun _ => ⟨[], .indexError, by simp [index1]⟩,
                  fun hff => by simp [index1] at hff⟩
              · simp only [index1]
                rcases hfl : pyFloat v5 with _ | d
                · exact ⟨fun _ => ⟨[], .valueError, by simp⟩, fun hff => by simp at hff⟩
                · simp only [Option.isNone_some, Bool.false_or]
                  rcases hts : pyStrptime f0 with _ | t
                  · exact ⟨fun _ => ⟨[], .valueError, by simp⟩,
                      fun hff => by simp at hff⟩
                  · exact ⟨fun hff => by simp at hff,
                      fun _ => ⟨[], ⟨t, ConnectionType.close, ip, fd, some d⟩, by simp⟩⟩
            · have hbeq : (f1 == "CLOSE") = false := by
                simpa using hcl
              simp only [kindAndDuration, hacc, hcl, if_false, hbeq,
                Bool.false_and, Bool.false_or]
              rcases hts : pyStrptime f0 with _ | t
              · exact ⟨fun _ => ⟨["Unmatched connection type " ++ f1], .valueError,
                  by simp⟩, fun hff => by simp at hff⟩
              · exact ⟨fun hff => by simp at hff,
                  fun _ => ⟨["Unmatched connection type " ++ f1],
                    ⟨t, ConnectionType.unknown, ip, fd, none⟩, by simp⟩⟩

end Analyze

namespace Analyze

attribute [local semireducible] Rat.add Rat.mul Rat.inv Rat.sub

/-- C5 counterexample: `msgBadTs` has six fields, a `host=` field 2, a
valid address, a valid descriptor and (being `ACCEPT`) needs no
duration — by the claim it should parse into an event — yet the parser
fails fatally, because its timestamp field does not parse. -/
theorem C5_counterexample :
    ConnectionEvent.from_journal msgBadTs = ([], .error PyErr.valueError) ∧
    ¬ structuralSkip msgBadTs ∧
    ipFailure msgBadTs = false ∧
    fdFailure msgBadTs = false ∧
    durFailure msgBadTs = false ∧
    tsFailure msgBadTs = true := by
  refine ⟨by decide, by decide, by decide, by decide, by decide, by decide⟩

/-- C5 (amended): for every line, exactly one of three behaviours —
structural skips (fewer than six space-separated fields or field 2 not
starting with `host=`) return no event and print nothing; otherwise the
parse fails fatally exactly when the address value is unparseable, the
descriptor field lacks an `=` piece or has a non-integer value, a `CLOSE`
line's duration field lacks an `=` piece or has a non-float value, OR the
timestamp field does not parse; and otherwise a well-formed event is
returned. -/
theorem C5_parse_trichotomy (msg : String) :
    (structuralSkip msg → ConnectionEvent.from_journal msg = ([], Except.ok none)) ∧
    (¬ structuralSkip msg →
      ((∃ lines e, ConnectionEvent.from_journal msg = (lines, Except.error e)) ↔
        fieldFailure msg = true)) ∧
    (¬ structuralSkip msg → fieldFailure msg = false →
      ∃ lines ev, ConnectionEvent.from_journal msg = (lines, Except.ok (some ev))) := by
  refine ⟨from_journal_skip msg, ?_, ?_⟩
  · intro hns
    constructor
    · intro ⟨lines, e, herr⟩
      by_cases hff : fieldFailure msg = true
      · exact hff
      · exfalso
        obtain ⟨lines2, ev, hok⟩ :=
          (from_journal_not_skip msg hns).2 (by simpa using hff)
        rw [herr] at hok
        simp at hok
    · intro hff
      exact (from_journal_not_skip msg hns).1 hff
  · intro hns hff
    exact (from_journal_not_skip msg hns).2 hff

/-- C5 witness: the trichotomy instantiated on a three-field line (silent
skip), the bad-timestamp line (fatal), and the scenario Accept line
(event returned). -/
theorem C5_parse_trichotomy_witness :
    ConnectionEvent.from_journal "too short line" = ([], Except.ok none) ∧
    (∃ lines e, ConnectionEvent.from_journal msgBadTs = (lines, Except.error e)) ∧
    (∃ lines ev, ConnectionEvent.from_journal msgAccept = (lines, Except.ok (some ev))) :=
  ⟨(C5_parse_trichotomy "too short line").1 (by decide),
   ((C5_parse_trichotomy msgBadTs).2.1 (by decide)).mpr (by decide),
   (C5_parse_trichotomy msgAccept).2.2 (by decide) (by decide)⟩

end Analyze
